import Mathlib

/-!
Verification of the pixel-level transparency-extraction pipeline of
`retro_asset_gen` (source: `src/retro_asset_gen/image_processor.py` and the
finalization step of `src/retro_asset_gen/generator.py`).

The Python code works on 8-bit RGBA pixels with IEEE double intermediate
arithmetic (`math.sqrt`, `round`, `int`).  Here the arithmetic is embedded
exactly: every per-pixel computation is an executable function on `ℕ`/`ℤ`
that compares squares instead of taking square roots, and each such function
is proved to agree with the exact real-valued formula from the code
(`round` is Python's banker's rounding, `int` truncates toward zero,
`_clamp` clamps after rounding).
-/

namespace RetroAssetGen

/-- An 8-bit RGBA pixel: four channels, each meant to lie in `[0, 255]`. -/
structure Pixel where
  r : ℕ
  g : ℕ
  b : ℕ
  a : ℕ
deriving DecidableEq

/-- An RGB triple, used for background/foreground reference comparisons. -/
abbrev Color := ℕ × ℕ × ℕ

/-- Well-formedness of a pixel: every channel is an 8-bit value. -/
def wfPixel (p : Pixel) : Prop := p.r ≤ 255 ∧ p.g ≤ 255 ∧ p.b ≤ 255 ∧ p.a ≤ 255

/-- Well-formedness of a color: every channel is an 8-bit value. -/
def wfColor (c : Color) : Prop := c.1 ≤ 255 ∧ c.2.1 ≤ 255 ∧ c.2.2 ≤ 255

instance (p : Pixel) : Decidable (wfPixel p) := by unfold wfPixel; infer_instance

instance (c : Color) : Decidable (wfColor c) := by unfold wfColor; infer_instance

/-- The RGB part of a pixel. -/
def rgbOf (p : Pixel) : Color := (p.r, p.g, p.b)

/-- Squared Euclidean RGB distance, over `ℤ`
(`_color_distance` in `image_processor.py` is its square root). -/
def sqDistZ (c1 c2 : Color) : ℤ :=
  ((c1.1 : ℤ) - c2.1) ^ 2 + ((c1.2.1 : ℤ) - c2.2.1) ^ 2 + ((c1.2.2 : ℤ) - c2.2.2) ^ 2

/-- Squared Euclidean RGB distance as a natural number. -/
def sqDist (c1 c2 : Color) : ℕ := (sqDistZ c1 c2).toNat

theorem sqDistZ_nonneg (c1 c2 : Color) : 0 ≤ sqDistZ c1 c2 := by
  unfold sqDistZ; positivity

theorem sqDist_cast (c1 c2 : Color) : (sqDist c1 c2 : ℤ) = sqDistZ c1 c2 := by
  unfold sqDist; exact Int.toNat_of_nonneg (sqDistZ_nonneg c1 c2)

/-- The squared distance, cast to `ℝ`, is the sum of the squared channel
differences; hence `Real.sqrt (sqDist c1 c2)` is the Euclidean RGB distance
computed by `_color_distance`. -/
theorem sqDist_toReal (c1 c2 : Color) :
    ((sqDist c1 c2 : ℕ) : ℝ) =
      ((c1.1 : ℝ) - c2.1) ^ 2 + ((c1.2.1 : ℝ) - c2.2.1) ^ 2 +
        ((c1.2.2 : ℝ) - c2.2.2) ^ 2 := by
  have h : ((sqDist c1 c2 : ℤ) : ℝ) = ((sqDistZ c1 c2 : ℤ) : ℝ) := by
    exact_mod_cast congrArg (fun z : ℤ => (z : ℝ)) (sqDist_cast c1 c2)
  push_cast at h ⊢
  rw [h]; unfold sqDistZ; push_cast; ring

/-- For nonnegative reals, comparing values is comparing squares. -/
theorem sq_lt_sq_iff_nonneg {x y : ℝ} (hx : 0 ≤ x) (hy : 0 ≤ y) :
    x ^ 2 < y ^ 2 ↔ x < y := by
  constructor <;> intro h <;> nlinarith

/-- For nonnegative reals, comparing values is comparing squares. -/
theorem sq_le_sq_iff_nonneg {x y : ℝ} (hx : 0 ≤ x) (hy : 0 ≤ y) :
    x ^ 2 ≤ y ^ 2 ↔ x ≤ y := by
  constructor <;> intro h <;> nlinarith

/-- `√m ≤ k` iff `m ≤ k²`, for naturals `m`, `k`. -/
theorem sqrt_natCast_le_iff (m k : ℕ) : Real.sqrt m ≤ (k : ℝ) ↔ m ≤ k ^ 2 := by
  have h1 : (0:ℝ) ≤ Real.sqrt m := Real.sqrt_nonneg _
  have h2 : (0:ℝ) ≤ (k:ℝ) := by positivity
  rw [← sq_le_sq_iff_nonneg h1 h2, Real.sq_sqrt (by positivity : (0:ℝ) ≤ (m:ℕ))]
  exact_mod_cast Iff.rfl

/-- `k ≤ √m` iff `k² ≤ m`, for naturals `m`, `k`. -/
theorem natCast_le_sqrt_iff (m k : ℕ) : (k : ℝ) ≤ Real.sqrt m ↔ k ^ 2 ≤ m := by
  have h1 : (0:ℝ) ≤ Real.sqrt m := Real.sqrt_nonneg _
  have h2 : (0:ℝ) ≤ (k:ℝ) := by positivity
  rw [← sq_le_sq_iff_nonneg h2 h1, Real.sq_sqrt (by positivity : (0:ℝ) ≤ (m:ℕ))]
  exact_mod_cast Iff.rfl

/-- `k < √m` iff `k² < m`, for naturals `m`, `k`. -/
theorem natCast_lt_sqrt_iff (m k : ℕ) : (k : ℝ) < Real.sqrt m ↔ k ^ 2 < m := by
  rw [← not_le, ← not_le, sqrt_natCast_le_iff]

/-- `√m < k` iff `m < k²`, for naturals `m`, `k`. -/
theorem sqrt_natCast_lt_iff (m k : ℕ) : Real.sqrt m < (k : ℝ) ↔ m < k ^ 2 := by
  rw [← not_le, ← not_le, natCast_le_sqrt_iff]

/-- `a·√n = √(a²·n)` and its floor is `Nat.sqrt (a²·n)`: the two bounds. -/
theorem natSqrt_mul_sqrt_bounds (a n : ℕ) :
    (Nat.sqrt (a ^ 2 * n) : ℝ) ≤ (a : ℝ) * Real.sqrt n ∧
      (a : ℝ) * Real.sqrt n < (Nat.sqrt (a ^ 2 * n) : ℝ) + 1 := by
  have hx : (a : ℝ) * Real.sqrt n = Real.sqrt ((a ^ 2 * n : ℕ) : ℝ) := by
    push_cast
    rw [Real.sqrt_mul (by positivity) (n : ℝ), Real.sqrt_sq (by positivity : (0:ℝ) ≤ (a:ℝ))]
  constructor
  · rw [hx]
    exact (natCast_le_sqrt_iff _ _).mpr (Nat.sqrt_le' _)
  · rw [hx]
    have h := Nat.lt_succ_sqrt' (a ^ 2 * n)
    have := (sqrt_natCast_lt_iff (a ^ 2 * n) (Nat.sqrt (a ^ 2 * n) + 1)).mpr (by
      simpa [Nat.succ_eq_add_one] using h)
    simpa using this

/-- `⌊(a·√n + b) / c⌋` computed with integer arithmetic only
(`Int./` is Euclidean division, which is floor division for `0 < c`). -/
def floorSqrtLin (a n : ℕ) (b c : ℤ) : ℤ := ((Nat.sqrt (a ^ 2 * n) : ℤ) + b) / c

theorem floorSqrtLin_spec (a n : ℕ) (b c : ℤ) (hc : 0 < c) :
    floorSqrtLin a n b c = ⌊((a : ℝ) * Real.sqrt n + (b : ℝ)) / (c : ℝ)⌋ := by
  obtain ⟨hlo, hhi⟩ := natSqrt_mul_sqrt_bounds a n
  have hfq : floorSqrtLin a n b c = ((Nat.sqrt (a ^ 2 * n) : ℤ) + b) / c := rfl
  set s : ℤ := (Nat.sqrt (a ^ 2 * n) : ℤ) with hs
  set q : ℤ := (s + b) / c with hq
  have hdm : c * q + (s + b) % c = s + b := Int.ediv_add_emod (s + b) c
  have hm0 : 0 ≤ (s + b) % c := Int.emod_nonneg _ (ne_of_gt hc)
  have hm1 : (s + b) % c < c := Int.emod_lt_of_pos _ hc
  have hcq1 : c * q ≤ s + b := by omega
  have hcq2 : s + b + 1 ≤ c * (q + 1) := by nlinarith
  have hcR : (0:ℝ) < (c:ℝ) := by exact_mod_cast hc
  rw [hfq]
  symm
  rw [Int.floor_eq_iff]
  constructor
  · rw [le_div_iff hcR]
    have h1 : ((c * q : ℤ) : ℝ) ≤ ((s + b : ℤ) : ℝ) := by exact_mod_cast hcq1
    rw [hs] at h1
    push_cast at h1
    nlinarith [hlo]
  · rw [div_lt_iff hcR]
    have h2 : ((s + b + 1 : ℤ) : ℝ) ≤ ((c * (q + 1) : ℤ) : ℝ) := by exact_mod_cast hcq2
    rw [hs] at h2
    push_cast at h2
    nlinarith [hhi]

/-- `k` is the result of rounding `v` to the nearest integer with ties to
even — the behaviour of Python's `round` on an exactly-represented value. -/
def IsRoundHE (k : ℤ) (v : ℝ) : Prop :=
  |(k : ℝ) - v| ≤ 1 / 2 ∧ (|(k : ℝ) - v| = 1 / 2 → Even k)

/-- Any integer strictly within `1/2` of `v` is the rounded value. -/
theorem IsRoundHE.eq_of_close {k c : ℤ} {v : ℝ} (h : IsRoundHE k v)
    (hc : |(c : ℝ) - v| < 1 / 2) : k = c := by
  have h1 : |(k : ℝ) - (c : ℝ)| < 1 := by
    calc |(k : ℝ) - c| ≤ |(k : ℝ) - v| + |v - (c : ℝ)| := abs_sub_le _ _ _
    _ < 1 := by rw [abs_sub_comm v (c : ℝ)]; linarith [h.1]
  have h2 : |k - c| < 1 := by exact_mod_cast (by push_cast; exact h1 : |((k - c : ℤ) : ℝ)| < 1)
  rw [abs_lt] at h2
  omega

/-- Rounding `(a·√n + b) / c` (for `a n : ℕ`, `0 < c`) with ties to even,
using only integer arithmetic: square comparisons decide on which side of
the midpoint the value lies. -/
def rdSqrtLinNat (a n : ℕ) (b c : ℤ) : ℤ :=
  let f := floorSqrtLin a n b c
  let m := (2 * f + 1) * c - 2 * b
  if 4 * (a : ℤ) ^ 2 * (n : ℤ) < m ^ 2 ∧ 0 < m then f
  else if 4 * (a : ℤ) ^ 2 * (n : ℤ) = m ^ 2 ∧ 0 ≤ m then (if f % 2 = 0 then f else f + 1)
  else f + 1

theorem rdSqrtLinNat_spec (a n : ℕ) (b c : ℤ) (hc : 0 < c) :
    IsRoundHE (rdSqrtLinNat a n b c) (((a : ℝ) * Real.sqrt n + (b : ℝ)) / (c : ℝ)) := by
  set v : ℝ := ((a : ℝ) * Real.sqrt n + (b : ℝ)) / (c : ℝ) with hv
  have hfl : floorSqrtLin a n b c = ⌊v⌋ := floorSqrtLin_spec a n b c hc
  set f := floorSqrtLin a n b c with hf
  set m : ℤ := (2 * f + 1) * c - 2 * b with hm
  have hcR : (0:ℝ) < (c:ℝ) := by exact_mod_cast hc
  have hfle : (f : ℝ) ≤ v := by rw [hfl]; exact Int.floor_le v
  have hflt : v < (f : ℝ) + 1 := by rw [hfl]; exact_mod_cast Int.lt_floor_add_one v
  set x : ℝ := (a : ℝ) * Real.sqrt n with hx
  have hx0 : 0 ≤ x := by rw [hx]; positivity
  have hxsq : x ^ 2 = ((a ^ 2 * n : ℕ) : ℝ) := by
    rw [hx]; push_cast
    rw [mul_pow, Real.sq_sqrt (by positivity : (0:ℝ) ≤ (n:ℝ))]
  have hmid : v < (f : ℝ) + 1 / 2 ↔ 2 * x < (m : ℝ) := by
    rw [hv, div_lt_iff hcR, hm]
    push_cast
    constructor <;> intro h <;> nlinarith
  have hmide : v = (f : ℝ) + 1 / 2 ↔ 2 * x = (m : ℝ) := by
    rw [hv, div_eq_iff (ne_of_gt hcR), hm]
    push_cast
    constructor <;> intro h <;> nlinarith
  have hkey : rdSqrtLinNat a n b c =
      if 4 * (a : ℤ) ^ 2 * (n : ℤ) < m ^ 2 ∧ 0 < m then f
      else if 4 * (a : ℤ) ^ 2 * (n : ℤ) = m ^ 2 ∧ 0 ≤ m then (if f % 2 = 0 then f else f + 1)
      else f + 1 := rfl
  have hsqR : (2 * x) ^ 2 = ((4 * (a : ℤ) ^ 2 * (n : ℤ) : ℤ) : ℝ) := by
    have h := hxsq
    push_cast at h ⊢
    linear_combination 4 * h
  by_cases h1 : 4 * (a : ℤ) ^ 2 * (n : ℤ) < m ^ 2 ∧ 0 < m
  · -- value is strictly below the midpoint: round down
    have hmR : (0:ℝ) < (m : ℝ) := by exact_mod_cast h1.2
    have hlt : (2 * x) ^ 2 < ((m : ℤ) : ℝ) ^ 2 := by
      rw [hsqR]; exact_mod_cast h1.1
    have h2x : 2 * x < (m : ℝ) := by nlinarith
    have hvlt : v < (f : ℝ) + 1 / 2 := hmid.mpr h2x
    rw [hkey, if_pos h1]
    constructor
    · rw [abs_le]; constructor <;> linarith
    · intro habs
      exfalso
      rcases abs_eq (by norm_num : (0:ℝ) ≤ 1/2) |>.mp habs with h | h <;> linarith
  · by_cases h2 : 4 * (a : ℤ) ^ 2 * (n : ℤ) = m ^ 2 ∧ 0 ≤ m
    · -- exact midpoint: tie, choose the even neighbour
      have hmR : (0:ℝ) ≤ (m : ℝ) := by exact_mod_cast h2.2
      have heq : (2 * x) ^ 2 = ((m : ℤ) : ℝ) ^ 2 := by
        rw [hsqR]; exact_mod_cast h2.1
      have h2x : 2 * x = (m : ℝ) := by nlinarith
      have hvmid : v = (f : ℝ) + 1 / 2 := hmide.mpr h2x
      rw [hkey, if_neg h1, if_pos h2]
      by_cases hev : f % 2 = 0
      · rw [if_pos hev]
        constructor
        · rw [hvmid]; rw [abs_le]; constructor <;> linarith
        · intro _; exact Int.even_iff.mpr hev
      · rw [if_neg hev]
        constructor
        · rw [hvmid]; push_cast; rw [abs_le]; constructor <;> linarith
        · intro _
          have : ¬ Even f := fun h => hev (Int.even_iff.mp h)
          simpa using (Int.even_add_one).mpr this
    · -- value is strictly above the midpoint: round up
      have h2x : (m : ℝ) < 2 * x := by
        rcases lt_trichotomy m 0 with hm0 | hm0 | hm0
        · have : ((m : ℤ) : ℝ) < 0 := by exact_mod_cast hm0
          nlinarith
        · have hne : 4 * (a : ℤ) ^ 2 * (n : ℤ) ≠ 0 := by
            intro h0
            exact h2 ⟨by rw [hm0]; simpa using h0, by simp [hm0]⟩
          have hge : (0:ℝ) ≤ (2 * x) ^ 2 := by positivity
          have hne2 : (2 * x) ^ 2 ≠ 0 := by
            rw [hsqR]; exact_mod_cast hne
          have hxpos : 0 < 2 * x := by
            rcases lt_or_eq_of_le (by linarith : (0:ℝ) ≤ 2 * x) with h | h
            · exact h
            · exact absurd (by rw [← h]; ring) hne2
          rw [hm0]
          simpa using hxpos
        · have hle : m ^ 2 ≤ 4 * (a : ℤ) ^ 2 * (n : ℤ) := by
            by_contra hcon
            exact h1 ⟨lt_of_not_le hcon, hm0⟩
          have hne : m ^ 2 ≠ 4 * (a : ℤ) ^ 2 * (n : ℤ) := by
            intro h0
            exact h2 ⟨h0.symm, le_of_lt hm0⟩
          have hlt : ((m : ℤ) : ℝ) ^ 2 < (2 * x) ^ 2 := by
            rw [hsqR]; exact_mod_cast lt_of_le_of_ne hle hne
          have hmR : (0:ℝ) < (m : ℝ) := by exact_mod_cast hm0
          nlinarith
      have hvgt : (f : ℝ) + 1 / 2 < v := by
        rcases lt_trichotomy v ((f : ℝ) + 1 / 2) with h | h | h
        · exact absurd (hmid.mp h) (by linarith)
        · exact absurd (hmide.mp h) (by linarith)
        · exact h
      rw [hkey, if_neg h1, if_neg h2]
      constructor
      · push_cast; rw [abs_le]; constructor <;> linarith
      · intro habs
        exfalso
        have habs2 : |((f : ℝ) + 1) - v| = 1/2 := by push_cast at habs ⊢; exact habs
        rcases abs_eq (by norm_num : (0:ℝ) ≤ 1/2) |>.mp habs2 with h | h <;> linarith

/-- Rounding `(a·√n + b) / c` for a possibly negative coefficient `a`,
by symmetry of round-half-to-even. -/
def rdSqrtLin (a : ℤ) (n : ℕ) (b c : ℤ) : ℤ :=
  if a < 0 then -(rdSqrtLinNat a.natAbs n (-b) c) else rdSqrtLinNat a.natAbs n b c

theorem rdSqrtLin_spec (a : ℤ) (n : ℕ) (b c : ℤ) (hc : 0 < c) :
    IsRoundHE (rdSqrtLin a n b c) (((a : ℝ) * Real.sqrt n + (b : ℝ)) / (c : ℝ)) := by
  unfold rdSqrtLin
  by_cases ha : a < 0
  · rw [if_pos ha]
    have hspec := rdSqrtLinNat_spec a.natAbs n (-b) c hc
    have habsZ : ((a.natAbs : ℕ) : ℤ) = -a := by omega
    have habs : ((a.natAbs : ℕ) : ℝ) = -(a : ℝ) := by
      have h1 : (((a.natAbs : ℕ) : ℤ) : ℝ) = ((-a : ℤ) : ℝ) := by rw [habsZ]
      rw [Int.cast_natCast] at h1
      rw [h1]
      push_cast
      ring
    rw [habs] at hspec
    obtain ⟨hle, htie⟩ := hspec
    have hval : (-(a : ℝ) * Real.sqrt n + ((-b : ℤ) : ℝ)) / (c : ℝ) =
        -((( a : ℝ) * Real.sqrt n + (b : ℝ)) / (c : ℝ)) := by
      push_cast; ring
    rw [hval] at hle htie
    constructor
    · push_cast
      calc |(-(rdSqrtLinNat a.natAbs n (-b) c) : ℝ) - ((a : ℝ) * Real.sqrt n + (b : ℝ)) / (c : ℝ)|
          = |(rdSqrtLinNat a.natAbs n (-b) c : ℝ) - -(((a : ℝ) * Real.sqrt n + (b : ℝ)) / (c : ℝ))| := by
            rw [← abs_neg]; congr 1; ring
      _ ≤ 1 / 2 := hle
    · intro habs2
      have : |(rdSqrtLinNat a.natAbs n (-b) c : ℝ) - -(((a : ℝ) * Real.sqrt n + (b : ℝ)) / (c : ℝ))| = 1 / 2 := by
        rw [← habs2, ← abs_neg]; congr 1; push_cast; ring
      exact (even_neg).mpr (htie this)
  · rw [if_neg ha]
    have hspec := rdSqrtLinNat_spec a.natAbs n b c hc
    have habsZ : ((a.natAbs : ℕ) : ℤ) = a := by omega
    have habs : ((a.natAbs : ℕ) : ℝ) = (a : ℝ) := by
      have h1 : (((a.natAbs : ℕ) : ℤ) : ℝ) = ((a : ℤ) : ℝ) := by rw [habsZ]
      rw [Int.cast_natCast] at h1
      exact h1
    rw [habs] at hspec
    exact hspec

/-- `_clamp` in `image_processor.py`: clamp an (already rounded) integer to
`[0, 255]` and return it as a channel value. -/
def clamp255 (k : ℤ) : ℕ := (max 0 (min 255 k)).toNat

theorem clamp255_of_bounds {k : ℤ} (h0 : 0 ≤ k) (h255 : k ≤ 255) :
    (clamp255 k : ℤ) = k := by
  unfold clamp255
  rw [min_eq_right h255, max_eq_right h0]
  exact Int.toNat_of_nonneg h0

/-- `out` is exactly `_clamp(v)` for the real value `v`: some integer `k`
rounds `v` half-to-even and `out` clamps `k` into `[0, 255]`. -/
def isClampedRound (out : ℕ) (v : ℝ) : Prop :=
  ∃ k : ℤ, IsRoundHE k v ∧ out = clamp255 k

/-! ## Images

A PIL image after `convert("RGBA")`: a mode string, dimensions, and a
row-major pixel buffer (`pixels[x, y]` is `data[y * w + x]`). -/

structure Img where
  mode : String
  w : ℕ
  h : ℕ
  data : List Pixel
deriving DecidableEq

/-- `pixels[x, y]` access (out-of-range reads give a zero pixel; the code
only reads in-range positions). -/
def pixAt (img : Img) (x y : ℕ) : Pixel := img.data.getD (y * img.w + x) ⟨0, 0, 0, 0⟩

/-- All pixels of the buffer are 8-bit well-formed. -/
def wfImg (img : Img) : Prop := img.data.length = img.w * img.h ∧ ∀ p ∈ img.data, wfPixel p

/-! ## `collections.Counter` (`most_common`)

`Counter(samples).most_common(k)` sorts colors by decreasing count; the sort
is stable, so ties are broken by first-insertion order.  `distinctInOrder`
lists the distinct colors in first-occurrence order and `bestBy` picks the
first color of maximal count. -/

def distinctInOrder (l : List Color) : List Color :=
  l.foldl (fun acc c => if c ∈ acc then acc else acc ++ [c]) []

def bestBy (l : List Color) : List Color → Option (Color × ℕ)
  | [] => none
  | c :: cs => some (cs.foldl
      (fun best c2 => if best.2 < l.count c2 then (c2, l.count c2) else best)
      (c, l.count c))

/-- `Counter(l).most_common(1)[0]` (when `l` is nonempty). -/
def mostCommonOne (l : List Color) : Option (Color × ℕ) := bestBy l (distinctInOrder l)

/-- `Counter(l).most_common(2)`. -/
def mostCommonTwo (l : List Color) : List (Color × ℕ) :=
  let cands := distinctInOrder l
  match bestBy l cands with
  | none => []
  | some (c1, n1) =>
    match bestBy l (cands.erase c1) with
    | none => [(c1, n1)]
    | some (c2, n2) => [(c1, n1), (c2, n2)]

/-! ## UniformMatte: `make_background_transparent` -/

/-- The four corner pixels' RGB values, in the order the code samples them. -/
def cornerColors (img : Img) : List Color :=
  [rgbOf (pixAt img 0 0), rgbOf (pixAt img (img.w - 1) 0),
   rgbOf (pixAt img 0 (img.h - 1)), rgbOf (pixAt img (img.w - 1) (img.h - 1))]

/-- `Counter(corners).most_common(1)[0][0]`: the plurality corner color
(the corner list always has four entries, so the default is never used). -/
def actualBg (img : Img) : Color := ((mostCommonOne (cornerColors img)).getD ((0, 0, 0), 0)).1

/-- Decontaminated channel for an edge pixel:
`_clamp((ch - (1 - t) * bgc) / t)` with `t = (√d2 - B) / (F - B)`,
computed exactly.  Rationalizing by `√d2 + B` turns the value into
`((ch-bgc)·(F-B)·√d2 + (ch-bgc)·(F-B)·B + bgc·(d2-B²)) / (d2-B²)`,
which `rdSqrtLin` rounds half-to-even using integer arithmetic
(`d2 > B²` in the edge branch, so the denominator is positive). -/
def decontamChannel (B F bgc ch d2 : ℕ) : ℕ :=
  let aC : ℤ := ((ch : ℤ) - bgc) * ((F : ℤ) - B)
  clamp255 (rdSqrtLin aC d2 (aC * B + (bgc : ℤ) * ((d2 : ℤ) - (B : ℤ) ^ 2))
    ((d2 : ℤ) - (B : ℤ) ^ 2))

/-- The per-pixel body of the loop in `make_background_transparent`.
`dist ≤ B` iff `d2 ≤ B²`, `dist ≥ F` iff `d2 ≥ F²`, and
`alpha_float > 0.01` iff `100·√d2 > F + 99·B` iff `10000·d2 > (F + 99·B)²`. -/
def uniformPixel (B F : ℕ) (bg : Color) (p : Pixel) : Pixel :=
  let d2 := sqDist (rgbOf p) bg
  if d2 ≤ B ^ 2 then ⟨p.r, p.g, p.b, 0⟩
  else if F ^ 2 ≤ d2 then ⟨p.r, p.g, p.b, 255⟩
  else
    let alpha := clamp255 (rdSqrtLin 255 d2 (-(255 * (B : ℤ))) ((F : ℤ) - B))
    if (F + 99 * B) ^ 2 < 10000 * d2 then
      ⟨decontamChannel B F bg.1 p.r d2, decontamChannel B F bg.2.1 p.g d2,
       decontamChannel B F bg.2.2 p.b d2, alpha⟩
    else ⟨p.r, p.g, p.b, alpha⟩

/-- Statistics from alpha matte processing (percentages are exact
rationals; the code computes `count / total * 100` in floats). -/
structure AlphaMatteStats where
  actual_bg : Color
  transparent_pct : ℚ
  edges_pct : ℚ
  opaque_pct : ℚ
deriving DecidableEq

/-- `make_background_transparent`: detects the background from the corner
plurality vote and rewrites every pixel with `uniformPixel`; `bg_type`,
`bg_dark` and `bg_light` are accepted but never used (the code binds
`_ = bg_dark if bg_type == "dark" else bg_light` and discards it). -/
def make_background_transparent (img : Img) (bg_type : String)
    (bg_dark bg_light : Color) (pure_bg_threshold pure_fg_threshold : ℕ) :
    Img × AlphaMatteStats :=
  let _ := if bg_type = "dark" then bg_dark else bg_light
  let bg := actualBg img
  let B := pure_bg_threshold
  let F := pure_fg_threshold
  let ft := img.data.countP (fun p => decide (sqDist (rgbOf p) bg ≤ B ^ 2))
  let fo := img.data.countP (fun p =>
    decide (¬ sqDist (rgbOf p) bg ≤ B ^ 2 ∧ F ^ 2 ≤ sqDist (rgbOf p) bg))
  let pt := img.data.countP (fun p =>
    decide (¬ sqDist (rgbOf p) bg ≤ B ^ 2 ∧ ¬ F ^ 2 ≤ sqDist (rgbOf p) bg))
  let total : ℚ := ((img.w * img.h : ℕ) : ℚ)
  ({ img with data := img.data.map (uniformPixel B F bg) },
   ⟨bg, (ft : ℚ) / total * 100, (pt : ℚ) / total * 100, (fo : ℚ) / total * 100⟩)

/-- `has_alpha_channel`: checks the stored image *mode*, not pixel values. -/
def has_alpha_channel (img : Img) : Bool :=
  img.mode == "RGBA" || img.mode == "LA" || img.mode == "PA"

/-! ## DifferenceMatte: `difference_matte` -/

/-- Statistics from difference matting. -/
structure DifferenceMatteStats where
  transparent_pct : ℚ
  semi_transparent_pct : ℚ
  opaque_pct : ℚ
deriving DecidableEq

/-- `⌈√m / d⌉` by integer arithmetic. -/
def ceilSqrtDiv (m d : ℕ) : ℕ := if m = 0 then 0 else Nat.sqrt (m - 1) / d + 1

/-- `⌊(a·√n + b) / c⌋` for naturals (`ℕ` division is floor division). -/
def floorSqrtLinN (a n b c : ℕ) : ℕ := (Nat.sqrt (a ^ 2 * n) + b) / c

/-- `int(alpha * 255)` where `alpha = clamp(1 - √Δ2/√(3·255²), 0, 1)`:
`255·alpha = 255 - √(Δ2/3)` (when the clamp is inactive), whose floor is
`255 - ⌈√(3·Δ2)/3⌉`; the `min` realizes the lower clamp at 0. -/
def dmAlpha (Δ2 : ℕ) : ℕ := 255 - min 255 (ceilSqrtDiv (3 * Δ2) 3)

/-- The per-pixel body of `difference_matte`.  The guard `alpha > 0.01` is
`10000·Δ2 < 9801·195075`; in that case each output channel is
`min(255, int(c_b / alpha))` with `c_b / alpha` rationalized to
`(255·c_b·√(3·Δ2) + 195075·c_b) / (195075 - Δ2)`. -/
def dmPixel (pw pb : Pixel) : Pixel :=
  let Δ2 := sqDist (rgbOf pw) (rgbOf pb)
  let alphaInt := dmAlpha Δ2
  if 10000 * Δ2 < 9801 * 195075 then
    ⟨min 255 (floorSqrtLinN (255 * pb.r) (3 * Δ2) (195075 * pb.r) (195075 - Δ2)),
     min 255 (floorSqrtLinN (255 * pb.g) (3 * Δ2) (195075 * pb.g) (195075 - Δ2)),
     min 255 (floorSqrtLinN (255 * pb.b) (3 * Δ2) (195075 * pb.b) (195075 - Δ2)),
     alphaInt⟩
  else ⟨0, 0, 0, alphaInt⟩

/-- `difference_matte`: checks the two sizes first and raises (returns the
error, carrying both sizes) before creating any output; otherwise builds a
fresh RGBA output image pixel by pixel. -/
def difference_matte (imgW imgB : Img) :
    Except ((ℕ × ℕ) × (ℕ × ℕ)) (Img × DifferenceMatteStats) :=
  if (imgW.w, imgW.h) = (imgB.w, imgB.h) then
    let data := List.zipWith dmPixel imgW.data imgB.data
    let tc := data.countP (fun q => decide (q.a = 0))
    let oc := data.countP (fun q => decide (q.a = 255))
    let sc := data.countP (fun q => decide (q.a ≠ 0 ∧ q.a ≠ 255))
    let total : ℚ := ((imgW.w * imgW.h : ℕ) : ℚ)
    .ok (⟨"RGBA", imgW.w, imgW.h, data⟩,
      ⟨(tc : ℚ) / total * 100, (sc : ℚ) / total * 100, (oc : ℚ) / total * 100⟩)
  else .error ((imgW.w, imgW.h), (imgB.w, imgB.h))

/-! ## Variant derivation: `convert_to_monochrome` -/

/-- The per-pixel body of `convert_to_monochrome`: pixels with positive
alpha get the target color (alpha preserved); others are untouched. -/
def monoPixel (target : Color) (p : Pixel) : Pixel :=
  if 0 < p.a then ⟨target.1, target.2.1, target.2.2, p.a⟩ else p

/-- `convert_to_monochrome`: opens the source, converts to RGBA, rewrites
pixels with positive alpha to the target color, and saves (so the stored
output mode is always RGBA). -/
def convert_to_monochrome (img : Img) (target_color : Color) : Img :=
  ⟨"RGBA", img.w, img.h, img.data.map (monoPixel target_color)⟩

/-- `GeneratorService.finalize`: the alpha-presence flag stored on each
derived variant is `has_alpha_channel` of the saved variant file. -/
def finalizeVariantHasAlpha (variant : Img) : Bool := has_alpha_channel variant

/-! ## Geometric normalization: `resize_image` -/

/-- Modelled from the spec: PIL's `Image.resize` (external library code) —
"performs a single resampling pass (Lanczos-equivalent kernel) producing
exactly target_w × target_h pixels".  Only the dimension guarantee matters
for the claims; the sample content stands in for the resampling kernel. -/
def pilResize (img : Img) (tw th : ℕ) : Img :=
  ⟨img.mode, tw, th,
   (List.range (tw * th)).map (fun i =>
     pixAt img ((i % tw) * img.w / tw) ((i / tw) * img.h / th))⟩

/-- `resize_image`: no-op (returning equal original/new dimensions) when
the image is already at the target size, otherwise a single resample. -/
def resize_image (img : Img) (target_width target_height : ℕ) :
    Img × (ℕ × ℕ × ℕ × ℕ) :=
  if (img.w, img.h) = (target_width, target_height) then
    (img, (img.w, img.h, img.w, img.h))
  else
    (pilResize img target_width target_height,
     (img.w, img.h, target_width, target_height))

/-! ## FloodErode: the iterative-erosion phase of `auto_remove_background`
(PASS 3, the `for _ in range(erosion_passes)` loop). -/

/-- The 8-neighborhood offsets, as in the code. -/
def neighborOffsets : List (ℤ × ℤ) :=
  [(-1, 0), (1, 0), (0, -1), (0, 1), (-1, -1), (1, -1), (-1, 1), (1, 1)]

/-- Some in-bounds 8-neighbor of `(x, y)` is already transparent. -/
def hasTransparentNeighbor (img : Img) (x y : ℕ) : Bool :=
  neighborOffsets.any (fun d =>
    let nx := (x : ℤ) + d.1
    let ny := (y : ℤ) + d.2
    decide (0 ≤ nx ∧ nx < (img.w : ℤ) ∧ 0 ≤ ny ∧ ny < (img.h : ℤ)) &&
      decide ((pixAt img nx.toNat ny.toNat).a = 0))

/-- One scan of the erosion loop: the positions collected in `erode_list`
(the scan reads the image; mutations happen only after the scan). -/
def erodeList (tolerance : ℕ) (bg : Color) (img : Img) : List (ℕ × ℕ) :=
  (List.range img.h).flatMap (fun y =>
    (List.range img.w).filterMap (fun x =>
      let p := pixAt img x y
      if p.a ≠ 0 ∧ sqDist (rgbOf p) bg < tolerance ^ 2 ∧
          hasTransparentNeighbor img x y = true
      then some (x, y) else none))

/-- Apply an erosion pass: make every listed position transparent. -/
def applyErode (img : Img) (l : List (ℕ × ℕ)) : Img :=
  { img with data := img.data.mapIdx (fun i p =>
      if (i % img.w, i / img.w) ∈ l then ⟨p.r, p.g, p.b, 0⟩ else p) }

/-- The erosion loop: up to `fuel = erosion_passes` rounds, breaking as
soon as a round collects nothing. -/
def erodeLoop (tolerance : ℕ) (bg : Color) : ℕ → Img → Img
  | 0, img => img
  | n + 1, img =>
    let l := erodeList tolerance bg img
    if l = [] then img else erodeLoop tolerance bg n (applyErode img l)

/-- Number of loop-body executions (scans) the erosion loop performs. -/
def erodeIters (tolerance : ℕ) (bg : Color) : ℕ → Img → ℕ
  | 0, _ => 0
  | n + 1, img =>
    let l := erodeList tolerance bg img
    if l = [] then 1 else 1 + erodeIters tolerance bg n (applyErode img l)

/-! ## CheckerboardDetect: `checkerboard_to_transparent` -/

/-- The four 64×64 corner-sample origins, inset by 5px (possibly negative
for small images, exactly as `width - sample_size - offset` in Python). -/
def cornerSampleOrigins (img : Img) : List (ℤ × ℤ) :=
  [(5, 5), ((img.w : ℤ) - 64 - 5, 5), (5, (img.h : ℤ) - 64 - 5),
   ((img.w : ℤ) - 64 - 5, (img.h : ℤ) - 64 - 5)]

/-- The corner samples, in scan order (`dy` outer, `dx` inner), keeping
only in-bounds positions. -/
def cornerSamples (img : Img) : List Color :=
  (cornerSampleOrigins img).flatMap (fun c =>
    (List.range 64).flatMap (fun dy =>
      (List.range 64).filterMap (fun dx =>
        let x := c.1 + dx
        let y := c.2 + dy
        if 0 ≤ x ∧ x < (img.w : ℤ) ∧ 0 ≤ y ∧ y < (img.h : ℤ)
        then some (rgbOf (pixAt img x.toNat y.toNat)) else none)))

/-- `checkerboard_to_transparent`: accepts the checkerboard hypothesis only
when the two most common corner-sample colors each cover ≥ 25% of the
samples and together ≥ 80% (`count < total*0.25` is exactly
`4·count < total`; `combined < 0.80` is exactly `5·(n1+n2) < 4·total`);
otherwise returns `none` with the image untouched. -/
def checkerboard_to_transparent (img : Img) (tolerance : ℕ) :
    Option (Color × Color) × Img :=
  let samples := cornerSamples img
  match mostCommonTwo samples with
  | [(color1, count1), (color2, count2)] =>
    let total := samples.length
    if 4 * count1 < total ∨ 4 * count2 < total then (none, img)
    else if 5 * (count1 + count2) < 4 * total then (none, img)
    else
      (some (color1, color2),
       { img with data := img.data.map (fun p =>
           if sqDist (rgbOf p) color1 < tolerance ^ 2 ∨
               sqDist (rgbOf p) color2 < tolerance ^ 2
           then ⟨p.r, p.g, p.b, 0⟩ else p) })
  | _ => (none, img)

/-! ## Pixel-level correctness lemmas for UniformMatte -/

theorem uniformPixel_bg {B F : ℕ} {bg : Color} {p : Pixel}
    (h : sqDist (rgbOf p) bg ≤ B ^ 2) :
    uniformPixel B F bg p = ⟨p.r, p.g, p.b, 0⟩ := by
  unfold uniformPixel
  rw [if_pos h]

theorem uniformPixel_fg {B F : ℕ} {bg : Color} {p : Pixel}
    (h1 : ¬ sqDist (rgbOf p) bg ≤ B ^ 2) (h2 : F ^ 2 ≤ sqDist (rgbOf p) bg) :
    uniformPixel B F bg p = ⟨p.r, p.g, p.b, 255⟩ := by
  unfold uniformPixel
  rw [if_neg h1, if_pos h2]

/-- The alpha of an edge pixel rounds `255·t` half-to-even, and lies in
`[0, 255]` (so `_clamp` leaves it alone). -/
theorem uniform_alpha_spec (B F d2 : ℕ) (hBF : B < F) (hlo : B ^ 2 < d2)
    (hhi : d2 < F ^ 2) :
    IsRoundHE (rdSqrtLin 255 d2 (-(255 * (B : ℤ))) ((F : ℤ) - B))
        (255 * ((Real.sqrt d2 - B) / ((F : ℝ) - B))) ∧
      0 ≤ rdSqrtLin 255 d2 (-(255 * (B : ℤ))) ((F : ℤ) - B) ∧
      rdSqrtLin 255 d2 (-(255 * (B : ℤ))) ((F : ℤ) - B) ≤ 255 := by
  have hc : (0 : ℤ) < (F : ℤ) - B := by
    have : (B : ℤ) < (F : ℤ) := by exact_mod_cast hBF
    omega
  have hcR : (0 : ℝ) < (F : ℝ) - B := by
    have : (B : ℝ) < F := by exact_mod_cast hBF
    linarith
  have hspec := rdSqrtLin_spec 255 d2 (-(255 * (B : ℤ))) ((F : ℤ) - B) hc
  have hval : (((255 : ℤ) : ℝ) * Real.sqrt d2 + ((-(255 * (B : ℤ)) : ℤ) : ℝ)) /
        (((F : ℤ) - B : ℤ) : ℝ) =
      255 * ((Real.sqrt d2 - B) / ((F : ℝ) - B)) := by
    push_cast
    rw [mul_div_assoc']
    congr 1
    ring
  rw [hval] at hspec
  have hBs : (B : ℝ) < Real.sqrt d2 := (natCast_lt_sqrt_iff d2 B).mpr hlo
  have hsF : Real.sqrt d2 < (F : ℝ) := (sqrt_natCast_lt_iff d2 F).mpr hhi
  have ht0 : 0 < (Real.sqrt d2 - B) / ((F : ℝ) - B) := by
    apply div_pos <;> linarith
  have ht1 : (Real.sqrt d2 - B) / ((F : ℝ) - B) < 1 := by
    rw [div_lt_one hcR]; linarith
  set k := rdSqrtLin 255 d2 (-(255 * (B : ℤ))) ((F : ℤ) - B) with hk
  have habs := hspec.1
  rw [abs_le] at habs
  refine ⟨hspec, ?_, ?_⟩
  · have h9 : (-1 : ℝ) < (k : ℝ) := by nlinarith [habs.1, habs.2]
    have h10 : (-1 : ℤ) < k := by exact_mod_cast h9
    omega
  · have h9 : (k : ℝ) < (256 : ℝ) := by nlinarith [habs.1, habs.2]
    have h10 : k < (256 : ℤ) := by exact_mod_cast h9
    omega

/-- The decontamination guard `alpha_float > 0.01` is exactly the integer
test `(F + 99·B)² < 10000·d2` (in the edge branch). -/
theorem uniform_guard_iff (B F d2 : ℕ) (hBF : B < F) :
    (F + 99 * B) ^ 2 < 10000 * d2 ↔
      1 / 100 < (Real.sqrt d2 - B) / ((F : ℝ) - B) := by
  have hcR : (0 : ℝ) < (F : ℝ) - B := by
    have : (B : ℝ) < F := by exact_mod_cast hBF
    linarith
  have hsqrt : ((F + 99 * B : ℕ) : ℝ) < Real.sqrt ((10000 * d2 : ℕ) : ℝ) ↔
      (F + 99 * B) ^ 2 < 10000 * d2 := natCast_lt_sqrt_iff (10000 * d2) (F + 99 * B)
  have hmul : Real.sqrt ((10000 * d2 : ℕ) : ℝ) = 100 * Real.sqrt d2 := by
    push_cast
    rw [show ((10000 : ℝ)) = (100 : ℝ) ^ 2 by norm_num, Real.sqrt_mul (by positivity),
      Real.sqrt_sq (by norm_num : (0:ℝ) ≤ (100:ℝ))]
  rw [hmul] at hsqrt
  rw [← hsqrt]
  push_cast
  rw [lt_div_iff hcR]
  constructor <;> intro h <;> nlinarith [Real.sqrt_nonneg ((d2 : ℕ) : ℝ)]

/-- A decontaminated channel is exactly
`_clamp((ch - (1 - t)·bgc) / t)` for `t = (√d2 - B)/(F - B)`. -/
theorem decontamChannel_spec (B F bgc ch d2 : ℕ) (hBF : B < F) (hlo : B ^ 2 < d2) :
    isClampedRound (decontamChannel B F bgc ch d2)
      (((ch : ℝ) - (1 - (Real.sqrt d2 - B) / ((F : ℝ) - B)) * bgc) /
        ((Real.sqrt d2 - B) / ((F : ℝ) - B))) := by
  have hc : (0 : ℤ) < (d2 : ℤ) - (B : ℤ) ^ 2 := by
    have : ((B ^ 2 : ℕ) : ℤ) < (d2 : ℤ) := by exact_mod_cast hlo
    push_cast at this
    omega
  have hBs : (B : ℝ) < Real.sqrt d2 := (natCast_lt_sqrt_iff d2 B).mpr hlo
  have hcR : (0 : ℝ) < (F : ℝ) - B := by
    have : (B : ℝ) < F := by exact_mod_cast hBF
    linarith
  have hs0 : (0 : ℝ) ≤ (B : ℝ) := by positivity
  have hsq : Real.sqrt d2 ^ 2 = (d2 : ℝ) := Real.sq_sqrt (by positivity)
  set aC : ℤ := ((ch : ℤ) - bgc) * ((F : ℤ) - B) with haC
  have hspec := rdSqrtLin_spec aC d2 (aC * B + (bgc : ℤ) * ((d2 : ℤ) - (B : ℤ) ^ 2))
    ((d2 : ℤ) - (B : ℤ) ^ 2) hc
  refine ⟨rdSqrtLin aC d2 (aC * B + (bgc : ℤ) * ((d2 : ℤ) - (B : ℤ) ^ 2))
    ((d2 : ℤ) - (B : ℤ) ^ 2), ?_, rfl⟩
  have hval : (((aC : ℤ) : ℝ) * Real.sqrt d2 +
        ((aC * B + (bgc : ℤ) * ((d2 : ℤ) - (B : ℤ) ^ 2) : ℤ) : ℝ)) /
        ((((d2 : ℤ) - (B : ℤ) ^ 2 : ℤ)) : ℝ) =
      ((ch : ℝ) - (1 - (Real.sqrt d2 - B) / ((F : ℝ) - B)) * bgc) /
        ((Real.sqrt d2 - B) / ((F : ℝ) - B)) := by
    rw [haC]
    push_cast
    revert hBs hsq
    generalize Real.sqrt ((d2 : ℕ) : ℝ) = s
    intro hBs hsq
    rw [← hsq]
    have h1 : s - (B : ℝ) ≠ 0 := by intro h0; nlinarith
    have h2 : s + (B : ℝ) ≠ 0 := by intro h0; nlinarith
    have h3 : (F : ℝ) - B ≠ 0 := ne_of_gt hcR
    have h4 : s ^ 2 - (B : ℝ) ^ 2 ≠ 0 := by
      intro h0
      have h5 : (s - B) * (s + B) = 0 := by nlinarith
      rcases mul_eq_zero.mp h5 with h | h
      · exact h1 h
      · exact h2 h
    field_simp
    ring
  rw [hval] at hspec
  exact hspec

theorem getD_map_of_lt {α β : Type} (f : α → β) (l : List α) (i : ℕ) (d : β) (e : α)
    (hi : i < l.length) : (l.map f).getD i d = f (l.getD i e) := by
  induction l generalizing i with
  | nil => simp at hi
  | cons x xs ih =>
    cases i with
    | zero => rfl
    | succ j =>
      simp only [List.map_cons, List.getD_cons_succ]
      exact ih j (by simpa using hi)

/-- The image component of `make_background_transparent`: every pixel is
rewritten by `uniformPixel` against the corner-detected background. -/
theorem make_background_transparent_img (img : Img) (bt : String) (bd bl : Color)
    (B F : ℕ) :
    (make_background_transparent img bt bd bl B F).1 =
      { img with data := img.data.map (uniformPixel B F (actualBg img)) } := rfl

/-- C1: For every RGBA image and thresholds `bg_threshold < fg_threshold`,
UniformMatte (`make_background_transparent`) classifies each pixel by its
Euclidean RGB distance `d` to the corner-detected background: `d ≤ B` gives
alpha 0 with RGB unchanged; `d ≥ F` gives alpha 255 with RGB unchanged;
otherwise, with `t = (d - B)/(F - B)`, alpha is `round(255·t)` (Python
round: half to even) and each RGB channel `c` becomes
`clamp(round((c - (1-t)·bg_c)/t), 0, 255)` when `t > 0.01` and stays
unchanged when `t ≤ 0.01`. -/
theorem uniformMatte_classifies_each_pixel (img : Img) (bg_type : String)
    (bg_dark bg_light : Color) (B F : ℕ) (hBF : B < F) (i : ℕ)
    (hi : i < img.data.length) (p : Pixel) (hp : p = img.data.getD i ⟨0, 0, 0, 0⟩)
    (bg : Color) (hbg : bg = actualBg img) (q : Pixel)
    (hq : q = (make_background_transparent img bg_type bg_dark bg_light B F).1.data.getD
      i ⟨0, 0, 0, 0⟩)
    (d : ℝ) (hd : d = Real.sqrt (((p.r : ℝ) - bg.1) ^ 2 + ((p.g : ℝ) - bg.2.1) ^ 2 +
      ((p.b : ℝ) - bg.2.2) ^ 2)) :
    (d ≤ (B : ℝ) → q = ⟨p.r, p.g, p.b, 0⟩) ∧
    ((F : ℝ) ≤ d → q = ⟨p.r, p.g, p.b, 255⟩) ∧
    ((B : ℝ) < d → d < (F : ℝ) →
      IsRoundHE (q.a : ℤ) (255 * ((d - B) / ((F : ℝ) - B))) ∧
      (1 / 100 < (d - B) / ((F : ℝ) - B) →
        isClampedRound q.r
          (((p.r : ℝ) - (1 - (d - B) / ((F : ℝ) - B)) * bg.1) / ((d - B) / ((F : ℝ) - B))) ∧
        isClampedRound q.g
          (((p.g : ℝ) - (1 - (d - B) / ((F : ℝ) - B)) * bg.2.1) / ((d - B) / ((F : ℝ) - B))) ∧
        isClampedRound q.b
          (((p.b : ℝ) - (1 - (d - B) / ((F : ℝ) - B)) * bg.2.2) / ((d - B) / ((F : ℝ) - B)))) ∧
      ((d - B) / ((F : ℝ) - B) ≤ 1 / 100 → q.r = p.r ∧ q.g = p.g ∧ q.b = p.b)) := by
  have hq2 : q = uniformPixel B F bg p := by
    rw [hq, make_background_transparent_img, hbg, hp]
    exact getD_map_of_lt _ _ _ _ _ hi
  have hd2 : d = Real.sqrt (sqDist (rgbOf p) bg) := by
    rw [hd, sqDist_toReal]
    rfl
  set d2 : ℕ := sqDist (rgbOf p) bg with hd2def
  refine ⟨?_, ?_, ?_⟩
  · intro hle
    have hle2 : d2 ≤ B ^ 2 := (sqrt_natCast_le_iff d2 B).mp (by rw [← hd2]; exact hle)
    rw [hq2, uniformPixel_bg hle2]
  · intro hge
    have hge2 : F ^ 2 ≤ d2 := (natCast_le_sqrt_iff d2 F).mp (by rw [← hd2]; exact hge)
    have hBd : (B : ℝ) < Real.sqrt d2 := by
      have hBFr : (B : ℝ) < (F : ℝ) := by exact_mod_cast hBF
      rw [← hd2]
      linarith
    have hlt2 : B ^ 2 < d2 := (natCast_lt_sqrt_iff d2 B).mp hBd
    rw [hq2, uniformPixel_fg (by omega) hge2]
  · intro hgt hlt
    have hlo : B ^ 2 < d2 := (natCast_lt_sqrt_iff d2 B).mp (by rw [← hd2]; exact hgt)
    have hhi : d2 < F ^ 2 := (sqrt_natCast_lt_iff d2 F).mp (by rw [← hd2]; exact hlt)
    have hq3 : q = if (F + 99 * B) ^ 2 < 10000 * d2 then
        (⟨decontamChannel B F bg.1 p.r d2, decontamChannel B F bg.2.1 p.g d2,
          decontamChannel B F bg.2.2 p.b d2,
          clamp255 (rdSqrtLin 255 d2 (-(255 * (B : ℤ))) ((F : ℤ) - B))⟩ : Pixel)
      else ⟨p.r, p.g, p.b, clamp255 (rdSqrtLin 255 d2 (-(255 * (B : ℤ))) ((F : ℤ) - B))⟩ := by
      rw [hq2]
      unfold uniformPixel
      rw [← hd2def, if_neg (by omega), if_neg (by omega)]
    obtain ⟨hround, hk0, hk255⟩ := uniform_alpha_spec B F d2 hBF hlo hhi
    have hqa : q.a = clamp255 (rdSqrtLin 255 d2 (-(255 * (B : ℤ))) ((F : ℤ) - B)) := by
      rw [hq3]
      split <;> rfl
    have hcast : ((clamp255 (rdSqrtLin 255 d2 (-(255 * (B : ℤ))) ((F : ℤ) - B)) : ℕ) : ℤ) =
        rdSqrtLin 255 d2 (-(255 * (B : ℤ))) ((F : ℤ) - B) := clamp255_of_bounds hk0 hk255
    refine ⟨?_, ?_, ?_⟩
    · rw [hd2, hqa, hcast]
      exact hround
    · intro ht
      have hguard : (F + 99 * B) ^ 2 < 10000 * d2 := by
        rw [uniform_guard_iff B F d2 hBF]
        rw [hd2] at ht
        exact ht
      rw [hq3, if_pos hguard]
      rw [hd2]
      exact ⟨decontamChannel_spec B F bg.1 p.r d2 hBF hlo,
        decontamChannel_spec B F bg.2.1 p.g d2 hBF hlo,
        decontamChannel_spec B F bg.2.2 p.b d2 hBF hlo⟩
    · intro ht
      have hguard : ¬ (F + 99 * B) ^ 2 < 10000 * d2 := by
        rw [uniform_guard_iff B F d2 hBF]
        rw [hd2] at ht
        linarith
      rw [hq3, if_neg hguard]
      exact ⟨rfl, rfl, rfl⟩

/-- C10: `make_background_transparent` produces identical output pixels and
identical statistics under any two assignments of `bg_type`, `bg_dark` and
`bg_light`: the reference background comes solely from the corner plurality
vote and those three arguments are never used. -/
theorem uniformMatte_ignores_bg_arguments (img : Img) (bt1 bt2 : String)
    (bd1 bd2 bl1 bl2 : Color) (B F : ℕ) :
    make_background_transparent img bt1 bd1 bl1 B F =
      make_background_transparent img bt2 bd2 bl2 B F := rfl

/-! ## Pixel-level correctness lemmas for DifferenceMatte -/

theorem ceilSqrtDiv_spec (m d : ℕ) (hd : 0 < d) :
    (ceilSqrtDiv m d : ℤ) = ⌈Real.sqrt m / (d : ℝ)⌉ := by
  unfold ceilSqrtDiv
  by_cases hm : m = 0
  · subst hm
    rw [if_pos rfl]
    simp
  · rw [if_neg hm]
    have hm1 : 1 ≤ m := Nat.one_le_iff_ne_zero.mpr hm
    set u := Nat.sqrt (m - 1) with hu
    set k := u / d + 1 with hk
    have hdR : (0:ℝ) < (d:ℝ) := by exact_mod_cast hd
    have h1 : (u / d) * d ≤ u := Nat.div_mul_le_self u d
    have h2 : u < k * d := by
      have hdm := Nat.div_add_mod u d
      have hmod := Nat.mod_lt u hd
      rw [hk]
      calc u = d * (u / d) + u % d := hdm.symm
      _ < d * (u / d) + d := by omega
      _ = (u / d + 1) * d := by ring
    have hlow : ((k - 1) * d) ^ 2 ≤ m - 1 := by
      have hs := Nat.sqrt_le' (m - 1)
      rw [hk]
      simp only [Nat.add_sub_cancel]
      calc (u / d * d) ^ 2 ≤ u ^ 2 := Nat.pow_le_pow_left h1 2
      _ ≤ m - 1 := hs
    have hhigh : m ≤ (k * d) ^ 2 := by
      have hs := Nat.lt_succ_sqrt' (m - 1)
      have : m - 1 < (u + 1) ^ 2 := by
        rw [hu]
        simpa [Nat.succ_eq_add_one] using hs
      have hkd : u + 1 ≤ k * d := h2
      have : m - 1 < (k * d) ^ 2 := lt_of_lt_of_le this (Nat.pow_le_pow_left hkd 2)
      omega
    have hklt : (((k - 1) * d : ℕ) : ℝ) < Real.sqrt m :=
      (natCast_lt_sqrt_iff m ((k - 1) * d)).mpr (lt_of_le_of_lt hlow (by omega))
    have hcast1 : (((k - 1) * d : ℕ) : ℝ) = ((k : ℝ) - 1) * d := by
      rw [hk]
      push_cast
      ring
    rw [hcast1] at hklt
    have hkle : Real.sqrt m ≤ ((k * d : ℕ) : ℝ) :=
      (sqrt_natCast_le_iff m (k * d)).mpr hhigh
    have hcast2 : ((k * d : ℕ) : ℝ) = (k : ℝ) * d := by push_cast; ring
    rw [hcast2] at hkle
    symm
    rw [Int.ceil_eq_iff]
    simp only [Int.cast_natCast]
    constructor
    · rw [lt_div_iff hdR]
      linarith
    · rw [div_le_iff hdR]
      linarith

theorem floorSqrtLinN_spec (a n b c : ℕ) (hc : 0 < c) :
    (floorSqrtLinN a n b c : ℤ) = ⌊((a : ℝ) * Real.sqrt n + (b : ℝ)) / (c : ℝ)⌋ := by
  obtain ⟨hlo, hhi⟩ := natSqrt_mul_sqrt_bounds a n
  unfold floorSqrtLinN
  set s := Nat.sqrt (a ^ 2 * n) with hs
  set q := (s + b) / c with hq
  have hdm := Nat.div_add_mod (s + b) c
  have hmod := Nat.mod_lt (s + b) hc
  have h1 : c * q ≤ s + b := by rw [hq]; omega
  have h2 : s + b + 1 ≤ c * (q + 1) := by
    rw [hq]
    calc s + b + 1 = c * ((s + b) / c) + (s + b) % c + 1 := by omega
    _ ≤ c * ((s + b) / c) + c := by omega
    _ = c * ((s + b) / c + 1) := by ring
  have hcR : (0:ℝ) < (c:ℝ) := by exact_mod_cast hc
  symm
  rw [Int.floor_eq_iff]
  constructor
  · rw [le_div_iff hcR]
    have hr1 : ((c * q : ℕ) : ℝ) ≤ ((s + b : ℕ) : ℝ) := by exact_mod_cast h1
    rw [hs] at hr1
    push_cast at hr1 ⊢
    nlinarith [hlo]
  · rw [div_lt_iff hcR]
    have hr2 : ((s + b + 1 : ℕ) : ℝ) ≤ ((c * (q + 1) : ℕ) : ℝ) := by exact_mod_cast h2
    rw [hs] at hr2
    push_cast at hr2 ⊢
    nlinarith [hhi]

theorem sq_diff_le_65025 {x y : ℤ} (hx0 : 0 ≤ x) (hx : x ≤ 255) (hy0 : 0 ≤ y)
    (hy : y ≤ 255) : (x - y) ^ 2 ≤ 65025 := by nlinarith

theorem wfColor_rgbOf {p : Pixel} (h : wfPixel p) : wfColor (rgbOf p) :=
  ⟨h.1, h.2.1, h.2.2.1⟩

theorem sqDist_le_of_wf {c1 c2 : Color} (h1 : wfColor c1) (h2 : wfColor c2) :
    sqDist c1 c2 ≤ 195075 := by
  obtain ⟨a1, b1, d1⟩ := h1
  obtain ⟨a2, b2, d2⟩ := h2
  have hz : sqDistZ c1 c2 ≤ 195075 := by
    unfold sqDistZ
    have e1 := sq_diff_le_65025 (x := (c1.1 : ℤ)) (y := (c2.1 : ℤ))
      (by positivity) (by exact_mod_cast a1) (by positivity) (by exact_mod_cast a2)
    have e2 := sq_diff_le_65025 (x := (c1.2.1 : ℤ)) (y := (c2.2.1 : ℤ))
      (by positivity) (by exact_mod_cast b1) (by positivity) (by exact_mod_cast b2)
    have e3 := sq_diff_le_65025 (x := (c1.2.2 : ℤ)) (y := (c2.2.2 : ℤ))
      (by positivity) (by exact_mod_cast d1) (by positivity) (by exact_mod_cast d2)
    omega
  unfold sqDist
  omega

theorem dmPixel_pos (pw pb : Pixel)
    (hg : 10000 * sqDist (rgbOf pw) (rgbOf pb) < 9801 * 195075) :
    dmPixel pw pb =
      ⟨min 255 (floorSqrtLinN (255 * pb.r) (3 * sqDist (rgbOf pw) (rgbOf pb))
          (195075 * pb.r) (195075 - sqDist (rgbOf pw) (rgbOf pb))),
       min 255 (floorSqrtLinN (255 * pb.g) (3 * sqDist (rgbOf pw) (rgbOf pb))
          (195075 * pb.g) (195075 - sqDist (rgbOf pw) (rgbOf pb))),
       min 255 (floorSqrtLinN (255 * pb.b) (3 * sqDist (rgbOf pw) (rgbOf pb))
          (195075 * pb.b) (195075 - sqDist (rgbOf pw) (rgbOf pb))),
       dmAlpha (sqDist (rgbOf pw) (rgbOf pb))⟩ := by
  unfold dmPixel
  rw [if_pos hg]

theorem dmPixel_neg (pw pb : Pixel)
    (hg : ¬ 10000 * sqDist (rgbOf pw) (rgbOf pb) < 9801 * 195075) :
    dmPixel pw pb = ⟨0, 0, 0, dmAlpha (sqDist (rgbOf pw) (rgbOf pb))⟩ := by
  unfold dmPixel
  rw [if_neg hg]

theorem dmPixel_a (pw pb : Pixel) :
    (dmPixel pw pb).a = dmAlpha (sqDist (rgbOf pw) (rgbOf pb)) := by
  simp only [dmPixel]
  split <;> rfl

theorem ceilSqrtDiv_le_255 {Δ2 : ℕ} (hbound : Δ2 ≤ 195075) :
    ceilSqrtDiv (3 * Δ2) 3 ≤ 255 := by
  unfold ceilSqrtDiv
  split
  · omega
  · have h765 : (765 : ℕ) ^ 2 = 585225 := by norm_num
    have h4 : Nat.sqrt (3 * Δ2 - 1) < 765 := by
      rw [Nat.sqrt_lt']
      omega
    have h5 : Nat.sqrt (3 * Δ2 - 1) / 3 ≤ 254 := by omega
    omega

/-- `dmPixel` agrees with the exact real formulas of `difference_matte`:
the stored alpha is `int(255·α)` for `α = clamp(1 - pixel_dist/bg_dist, 0, 1)`,
and the color is `min(255, int(black_pixel / α))` per channel when
`α > 0.01`, else `(0, 0, 0)`. -/
theorem dmPixel_spec (pw pb : Pixel) (hw : wfPixel pw) (hb : wfPixel pb)
    (α : ℝ)
    (hα : α = max 0 (min 1 (1 -
      Real.sqrt (((pw.r : ℝ) - pb.r) ^ 2 + ((pw.g : ℝ) - pb.g) ^ 2 +
        ((pw.b : ℝ) - pb.b) ^ 2) / Real.sqrt (3 * 255 * 255)))) :
    ((dmPixel pw pb).a : ℤ) = ⌊255 * α⌋ ∧
      (1 / 100 < α →
        ((dmPixel pw pb).r : ℤ) = min 255 ⌊(pb.r : ℝ) / α⌋ ∧
        ((dmPixel pw pb).g : ℤ) = min 255 ⌊(pb.g : ℝ) / α⌋ ∧
        ((dmPixel pw pb).b : ℤ) = min 255 ⌊(pb.b : ℝ) / α⌋) ∧
      (α ≤ 1 / 100 →
        (dmPixel pw pb).r = 0 ∧ (dmPixel pw pb).g = 0 ∧ (dmPixel pw pb).b = 0) := by
  set Δ2 := sqDist (rgbOf pw) (rgbOf pb) with hΔ
  have hbound : Δ2 ≤ 195075 := sqDist_le_of_wf (wfColor_rgbOf hw) (wfColor_rgbOf hb)
  have hsum : ((pw.r : ℝ) - pb.r) ^ 2 + ((pw.g : ℝ) - pb.g) ^ 2 + ((pw.b : ℝ) - pb.b) ^ 2
      = ((Δ2 : ℕ) : ℝ) := (sqDist_toReal (rgbOf pw) (rgbOf pb)).symm
  have hbgd : Real.sqrt ((3 : ℝ) * 255 * 255) = 255 * Real.sqrt 3 := by
    rw [show (3:ℝ) * 255 * 255 = (255:ℝ) ^ 2 * 3 by norm_num,
      Real.sqrt_mul (by positivity), Real.sqrt_sq (by norm_num : (0:ℝ) ≤ (255:ℝ))]
  have hr3 : Real.sqrt 3 ^ 2 = (3:ℝ) := Real.sq_sqrt (by norm_num)
  have hr3pos : (0:ℝ) < Real.sqrt 3 := Real.sqrt_pos.mpr (by norm_num)
  have hs0 : (0:ℝ) ≤ Real.sqrt ((Δ2 : ℕ) : ℝ) := Real.sqrt_nonneg _
  have hs2 : Real.sqrt ((Δ2 : ℕ) : ℝ) ^ 2 = ((Δ2 : ℕ) : ℝ) := Real.sq_sqrt (by positivity)
  have hCpos : (0:ℝ) < 255 * Real.sqrt 3 := by positivity
  have hsle : Real.sqrt ((Δ2 : ℕ) : ℝ) ≤ 255 * Real.sqrt 3 := by
    rw [← sq_le_sq_iff_nonneg hs0 (le_of_lt hCpos), hs2]
    have : ((Δ2 : ℕ) : ℝ) ≤ 195075 := by exact_mod_cast hbound
    nlinarith [hr3]
  have hαval : α = 1 - Real.sqrt ((Δ2 : ℕ) : ℝ) / (255 * Real.sqrt 3) := by
    rw [hα, hsum, hbgd]
    rw [min_eq_right (by linarith [div_nonneg hs0 (le_of_lt hCpos)]), max_eq_right ?hnn]
    case hnn =>
      rw [sub_nonneg, div_le_one hCpos]
      exact hsle
  have h3cast : Real.sqrt ((3 * Δ2 : ℕ) : ℝ) =
      Real.sqrt 3 * Real.sqrt ((Δ2 : ℕ) : ℝ) := by
    push_cast
    rw [Real.sqrt_mul (by norm_num)]
  have hceil255 : ceilSqrtDiv (3 * Δ2) 3 ≤ 255 := ceilSqrtDiv_le_255 hbound
  have hacast : (dmAlpha Δ2 : ℤ) = 255 - (ceilSqrtDiv (3 * Δ2) 3 : ℤ) := by
    unfold dmAlpha
    rw [min_eq_right hceil255]
    omega
  have h255α : 255 * α = -(Real.sqrt ((3 * Δ2 : ℕ) : ℝ) / 3) + ((255 : ℤ) : ℝ) := by
    have hdiv : Real.sqrt ((Δ2 : ℕ) : ℝ) / (255 * Real.sqrt 3) =
        Real.sqrt 3 * Real.sqrt ((Δ2 : ℕ) : ℝ) / (3 * 255) := by
      rw [div_eq_div_iff (ne_of_gt hCpos) (by norm_num : (3:ℝ) * 255 ≠ 0)]
      linear_combination (-255 * Real.sqrt ((Δ2 : ℕ) : ℝ)) * hr3
    rw [hαval, h3cast, hdiv]
    push_cast
    ring
  have halpha : ((dmPixel pw pb).a : ℤ) = ⌊255 * α⌋ := by
    rw [dmPixel_a, ← hΔ, hacast, h255α, Int.floor_add_int, Int.floor_neg]
    have hc3 : ((3:ℕ) : ℝ) = (3:ℝ) := by norm_num
    have hceq := ceilSqrtDiv_spec (3 * Δ2) 3 (by norm_num)
    rw [hc3] at hceq
    rw [← hceq]
    omega
  have hguard_iff : (10000 * Δ2 < 9801 * 195075) ↔ 1 / 100 < α := by
    rw [hαval]
    have h1 : (1/100 < 1 - Real.sqrt ((Δ2 : ℕ) : ℝ) / (255 * Real.sqrt 3)) ↔
        Real.sqrt ((Δ2 : ℕ) : ℝ) / (255 * Real.sqrt 3) < 99/100 := by
      constructor <;> intro <;> linarith
    have h2 : (Real.sqrt ((Δ2 : ℕ) : ℝ) / (255 * Real.sqrt 3) < 99/100) ↔
        100 * Real.sqrt ((Δ2 : ℕ) : ℝ) < 99 * (255 * Real.sqrt 3) := by
      rw [div_lt_div_iff hCpos (by norm_num : (0:ℝ) < 100)]
      constructor <;> intro <;> linarith
    have h3 : (100 * Real.sqrt ((Δ2 : ℕ) : ℝ) < 99 * (255 * Real.sqrt 3)) ↔
        (100 * Real.sqrt ((Δ2 : ℕ) : ℝ)) ^ 2 < (99 * (255 * Real.sqrt 3)) ^ 2 :=
      (sq_lt_sq_iff_nonneg (by positivity) (by positivity)).symm
    have h4 : (100 * Real.sqrt ((Δ2 : ℕ) : ℝ)) ^ 2 = 10000 * ((Δ2 : ℕ) : ℝ) := by
      linear_combination 10000 * hs2
    have h5 : (99 * (255 * Real.sqrt 3)) ^ 2 = 9801 * 195075 := by
      linear_combination (9801 * 65025 : ℝ) * hr3
    rw [h1, h2, h3, h4, h5]
    constructor <;> intro h <;> exact_mod_cast h
  refine ⟨halpha, ?_, ?_⟩
  · intro hαgt
    have hg : 10000 * Δ2 < 9801 * 195075 := hguard_iff.mpr hαgt
    have hΔlt : Δ2 < 195075 := by omega
    have hcpos : 0 < 195075 - Δ2 := by omega
    have hαpos : (0:ℝ) < α := by linarith
    have hsub : ((195075 - Δ2 : ℕ) : ℝ) = 195075 - ((Δ2 : ℕ) : ℝ) := by
      push_cast [Nat.cast_sub (le_of_lt hΔlt)]
      ring
    have hslt : Real.sqrt ((Δ2 : ℕ) : ℝ) < 255 * Real.sqrt 3 := by
      rw [← sq_lt_sq_iff_nonneg hs0 (le_of_lt hCpos), hs2]
      have : ((Δ2 : ℕ) : ℝ) < 195075 := by exact_mod_cast hΔlt
      nlinarith [hr3]
    have hchan : ∀ ch : ℕ, ch ≤ 255 →
        ((min 255 (floorSqrtLinN (255 * ch) (3 * Δ2) (195075 * ch) (195075 - Δ2)) : ℕ) : ℤ)
          = min 255 ⌊(ch : ℝ) / α⌋ := by
      intro ch _
      have hfsp := floorSqrtLinN_spec (255 * ch) (3 * Δ2) (195075 * ch) (195075 - Δ2) hcpos
      have hΔltR : ((Δ2 : ℕ) : ℝ) < 195075 := by exact_mod_cast hΔlt
      have hval : (((255 * ch : ℕ) : ℝ) * Real.sqrt ((3 * Δ2 : ℕ) : ℝ) +
            ((195075 * ch : ℕ) : ℝ)) / (((195075 - Δ2 : ℕ) : ℝ)) = (ch : ℝ) / α := by
        rw [hαval, hsub, h3cast]
        push_cast
        revert hr3 hs2 hslt hΔltR
        generalize Real.sqrt ((Δ2 : ℕ) : ℝ) = s
        generalize Real.sqrt (3 : ℝ) = r3
        intro hr3 hs2 hslt hΔltR
        rw [← hs2] at hΔltR ⊢
        have hr3ne : r3 ≠ 0 := by
          intro h0
          rw [h0] at hr3
          norm_num at hr3
        have hne1 : 255 * r3 - s ≠ 0 := by intro h0; linarith
        have hne2 : (255:ℝ) * r3 ≠ 0 := by
          intro h0
          rcases mul_eq_zero.mp h0 with h | h
          · norm_num at h
          · exact hr3ne h
        have hne3 : (195075:ℝ) - s ^ 2 ≠ 0 := by intro h0; linarith
        have hden : 1 - s / (255 * r3) ≠ 0 := by
          have hrw : 1 - s / (255 * r3) = (255 * r3 - s) / (255 * r3) := by
            field_simp
          rw [hrw]
          exact div_ne_zero hne1 hne2
        rw [div_eq_div_iff hne3 hden]
        field_simp
        linear_combination (65025 * (ch : ℝ) * s) * hr3
      rw [Nat.cast_min]
      rw [hfsp, hval]
      norm_num
    have hpr := dmPixel_pos pw pb (by rw [← hΔ]; exact hg)
    refine ⟨?_, ?_, ?_⟩
    · rw [hpr]
      exact hchan pb.r hb.1
    · rw [hpr]
      exact hchan pb.g hb.2.1
    · rw [hpr]
      exact hchan pb.b hb.2.2.1
  · intro hαle
    have hg : ¬ 10000 * Δ2 < 9801 * 195075 := by
      intro h
      exact absurd (hguard_iff.mp h) (not_lt.mpr hαle)
    have hpr := dmPixel_neg pw pb (by rw [← hΔ]; exact hg)
    rw [hpr]
    exact ⟨rfl, rfl, rfl⟩

/-- A pixel that looks the same on both backgrounds (`pixel_dist = 0`)
comes out fully opaque with the black-composite color. -/
theorem dmPixel_dist_zero (pw pb : Pixel) (hb : wfPixel pb)
    (h : sqDist (rgbOf pw) (rgbOf pb) = 0) :
    dmPixel pw pb = ⟨pb.r, pb.g, pb.b, 255⟩ := by
  have hchan : ∀ ch : ℕ, ch ≤ 255 →
      min 255 (floorSqrtLinN (255 * ch) (3 * 0) (195075 * ch) (195075 - 0)) = ch := by
    intro ch hch
    unfold floorSqrtLinN
    simp only [Nat.mul_zero, Nat.sqrt_zero, Nat.zero_add, Nat.sub_zero, Nat.zero_eq]
    rw [Nat.mul_div_cancel_left ch (by norm_num : 0 < 195075)]
    exact min_eq_right hch
  have hpr := dmPixel_pos pw pb (by rw [h]; norm_num)
  have ha : dmAlpha 0 = 255 := by
    unfold dmAlpha ceilSqrtDiv
    norm_num
  rw [hpr, h, ha, hchan pb.r hb.1, hchan pb.g hb.2.1, hchan pb.b hb.2.2.1]

/-- `dmAlpha` is 0 as soon as the ceiling term saturates at 255. -/
theorem dmAlpha_eq_zero {Δ2 : ℕ} (h : 255 ≤ ceilSqrtDiv (3 * Δ2) 3) :
    dmAlpha Δ2 = 0 := by
  unfold dmAlpha
  omega

/-- A pixel that is pure white on the white composite and pure black on
the black composite comes out fully transparent with zeroed color. -/
theorem dmPixel_white_black (pw pb : Pixel) (hw : rgbOf pw = (255, 255, 255))
    (hb : rgbOf pb = (0, 0, 0)) : dmPixel pw pb = ⟨0, 0, 0, 0⟩ := by
  have hΔ : sqDist (rgbOf pw) (rgbOf pb) = 195075 := by
    rw [hw, hb]
    unfold sqDist sqDistZ
    norm_num
    simp
  have h764 : Nat.sqrt 585224 = 764 := by
    have h1 : 764 ≤ Nat.sqrt 585224 := Nat.le_sqrt.mpr (by norm_num)
    have h2 : Nat.sqrt 585224 < 765 := Nat.sqrt_lt'.mpr (by norm_num)
    omega
  have h255 : ceilSqrtDiv (3 * 195075) 3 = 255 := by
    unfold ceilSqrtDiv
    rw [if_neg (by norm_num : ¬ (3 * 195075 : ℕ) = 0)]
    rw [show (3 * 195075 - 1 : ℕ) = 585224 by norm_num, h764]
  have hpr := dmPixel_neg pw pb (by rw [hΔ]; norm_num)
  have ha : dmAlpha 195075 = 0 := dmAlpha_eq_zero h255.ge
  rw [hpr, hΔ, ha]

theorem getD_zipWith_of_lt {α : Type} (f : α → α → α) (l1 l2 : List α) (i : ℕ)
    (d : α) (h1 : i < l1.length) (h2 : i < l2.length) :
    (List.zipWith f l1 l2).getD i d = f (l1.getD i d) (l2.getD i d) := by
  induction l1 generalizing i l2 with
  | nil => simp at h1
  | cons x xs ih =>
    cases l2 with
    | nil => simp at h2
    | cons y ys =>
      cases i with
      | zero => rfl
      | succ j =>
        simp only [List.zipWith_cons_cons, List.getD_cons_succ]
        exact ih ys j (by simpa using h1) (by simpa using h2)

/-- The successful result of `difference_matte` on equal-sized inputs. -/
theorem difference_matte_ok (imgW imgB : Img)
    (hsz : (imgW.w, imgW.h) = (imgB.w, imgB.h)) :
    ∃ stats, difference_matte imgW imgB =
      .ok (⟨"RGBA", imgW.w, imgW.h, List.zipWith dmPixel imgW.data imgB.data⟩, stats) := by
  unfold difference_matte
  rw [if_pos hsz]
  exact ⟨_, rfl⟩

/-- C2: For every pair of equal-sized RGBA images, DifferenceMatte
(`difference_matte`) assigns each output pixel the stored alpha
`int(255·α)` with `α = clamp(1 - pixel_dist/√(3·255²), 0, 1)` where
`pixel_dist` is the Euclidean RGB distance between the white-composite and
black-composite pixels; when `α > 0.01` the output color is the
black-composite pixel divided by `α`, truncated and clamped to 255 per
channel, otherwise the output color is `(0,0,0)`.  In particular a pixel
with `pixel_dist = 0` yields alpha 255 with the black-composite color, and
a pixel pure white in the white composite and pure black in the black
composite yields alpha 0. -/
theorem differenceMatte_pixel_formula (imgW imgB : Img)
    (hsz : (imgW.w, imgW.h) = (imgB.w, imgB.h)) (out : Img)
    (stats : DifferenceMatteStats)
    (hok : difference_matte imgW imgB = .ok (out, stats)) (i : ℕ)
    (hiW : i < imgW.data.length) (hiB : i < imgB.data.length) (pw pb : Pixel)
    (hpw : pw = imgW.data.getD i ⟨0, 0, 0, 0⟩)
    (hpb : pb = imgB.data.getD i ⟨0, 0, 0, 0⟩)
    (hwfw : wfPixel pw) (hwfb : wfPixel pb) (q : Pixel)
    (hq : q = out.data.getD i ⟨0, 0, 0, 0⟩) (α : ℝ)
    (hα : α = max 0 (min 1 (1 -
      Real.sqrt (((pw.r : ℝ) - pb.r) ^ 2 + ((pw.g : ℝ) - pb.g) ^ 2 +
        ((pw.b : ℝ) - pb.b) ^ 2) / Real.sqrt (3 * 255 * 255)))) :
    ((q.a : ℤ) = ⌊255 * α⌋) ∧
      (1 / 100 < α →
        (q.r : ℤ) = min 255 ⌊(pb.r : ℝ) / α⌋ ∧
        (q.g : ℤ) = min 255 ⌊(pb.g : ℝ) / α⌋ ∧
        (q.b : ℤ) = min 255 ⌊(pb.b : ℝ) / α⌋) ∧
      (α ≤ 1 / 100 → q.r = 0 ∧ q.g = 0 ∧ q.b = 0) ∧
      (sqDist (rgbOf pw) (rgbOf pb) = 0 → q = ⟨pb.r, pb.g, pb.b, 255⟩) ∧
      (rgbOf pw = (255, 255, 255) → rgbOf pb = (0, 0, 0) → q = ⟨0, 0, 0, 0⟩) := by
  obtain ⟨stats2, hok2⟩ := difference_matte_ok imgW imgB hsz
  rw [hok] at hok2
  have hout : out = ⟨"RGBA", imgW.w, imgW.h, List.zipWith dmPixel imgW.data imgB.data⟩ := by
    have := (Except.ok.injEq _ _).mp hok2
    exact congrArg Prod.fst this
  have hq2 : q = dmPixel pw pb := by
    rw [hq, hout, hpw, hpb]
    exact getD_zipWith_of_lt dmPixel imgW.data imgB.data i ⟨0, 0, 0, 0⟩ hiW hiB
  obtain ⟨h1, h2, h3⟩ := dmPixel_spec pw pb hwfw hwfb α hα
  rw [hq2]
  exact ⟨h1, h2, h3, fun h0 => dmPixel_dist_zero pw pb hwfb h0,
    fun hwc hbc => dmPixel_white_black pw pb hwc hbc⟩

/-- C5: `difference_matte` checks the two input sizes first and fails with
a dimension-mismatch error (carrying both sizes) when they differ: the
error is raised before any output image is created, so no output exists
and (the embedding being a pure function of both inputs) neither input is
modified. -/
theorem differenceMatte_dimension_mismatch (imgW imgB : Img)
    (hne : (imgW.w, imgW.h) ≠ (imgB.w, imgB.h)) :
    difference_matte imgW imgB =
      .error ((imgW.w, imgW.h), (imgB.w, imgB.h)) ∧
      ∀ out stats, difference_matte imgW imgB ≠ .ok (out, stats) := by
  constructor
  · unfold difference_matte
    rw [if_neg hne]
  · intro out stats hok
    unfold difference_matte at hok
    rw [if_neg hne] at hok
    exact Except.noConfusion hok

/-! ## C3: color policy at the alpha extremes -/

theorem clamp255_eq_255_imp {k : ℤ} (h : clamp255 k = 255) : 255 ≤ k := by
  unfold clamp255 at h
  omega

theorem clamp255_eq_zero_imp {k : ℤ} (h : clamp255 k = 0) : k ≤ 0 := by
  unfold clamp255 at h
  omega

theorem clamp255_of_ge {k : ℤ} (h : 255 ≤ k) : clamp255 k = 255 := by
  unfold clamp255
  omega

theorem clamp255_of_le_zero {k : ℤ} (h : k ≤ 0) : clamp255 k = 0 := by
  unfold clamp255
  omega

/-- When an edge pixel ends with stored alpha 255 (`t > 509/510`),
decontamination rounds every channel back to its original value: states
within `1/2` stay put, and the two extreme channel/background pairs are
rescued by the clamp. -/
theorem decontamChannel_id_of_t_close (B F bgc ch d2 : ℕ) (hBF : B < F)
    (hlo : B ^ 2 < d2) (hch : ch ≤ 255) (hbgc : bgc ≤ 255)
    (ht : (509 : ℝ) / 510 < (Real.sqrt d2 - B) / ((F : ℝ) - B))
    (ht1 : (Real.sqrt d2 - B) / ((F : ℝ) - B) < 1) :
    decontamChannel B F bgc ch d2 = ch := by
  obtain ⟨k, hk, hkeq⟩ := decontamChannel_spec B F bgc ch d2 hBF hlo
  set t := (Real.sqrt d2 - B) / ((F : ℝ) - B) with htt
  set v := ((ch : ℝ) - (1 - t) * bgc) / t with hv
  have ht0 : (0 : ℝ) < t := by linarith
  have htle : t ≤ 1 := le_of_lt ht1
  have hfrac : (1 - t) / t < 1 / 509 := by
    rw [div_lt_div_iff ht0 (by norm_num)]
    nlinarith
  have hfrac0 : 0 ≤ (1 - t) / t := div_nonneg (by linarith) (le_of_lt ht0)
  have hvch : v - ch = ((ch : ℝ) - bgc) * ((1 - t) / t) := by
    rw [hv]
    field_simp
    ring
  have hcases : ((ch : ℤ) - bgc ≤ 254 ∧ -254 ≤ (ch : ℤ) - bgc) ∨
      (ch = 255 ∧ bgc = 0) ∨ (ch = 0 ∧ bgc = 255) := by omega
  rcases hcases with ⟨hc1, hc2⟩ | ⟨hc1, hc2⟩ | ⟨hc1, hc2⟩
  · -- |ch - bgc| ≤ 254 : the rounded value is ch itself
    have hd1 : ((ch : ℝ) - bgc) ≤ 254 := by exact_mod_cast hc1
    have hd2 : (-254 : ℝ) ≤ ((ch : ℝ) - bgc) := by exact_mod_cast hc2
    have hclose : |(ch : ℝ) - v| < 1 / 2 := by
      rw [abs_sub_comm, abs_lt]
      constructor
      · rw [hvch] at *
        nlinarith
      · rw [hvch] at *
        nlinarith
    have hkch : k = (ch : ℤ) := hk.eq_of_close hclose
    rw [hkeq, hkch]
    have := clamp255_of_bounds (k := (ch : ℤ)) (by positivity) (by exact_mod_cast hch)
    exact_mod_cast this
  · -- ch = 255, bgc = 0 : v slightly above 255, clamp brings it back
    subst hc1
    subst hc2
    have hveq : v = 255 + 255 * ((1 - t) / t) := by
      rw [hv]
      push_cast
      field_simp
      ring
    have hk255 : 255 ≤ k := by
      have h1 := (abs_le.mp hk.1).1
      have h2 : (0 : ℝ) ≤ 255 * ((1 - t) / t) := by positivity
      rw [hveq] at h1
      have h3 : ((254 : ℤ) : ℝ) < (k : ℝ) := by push_cast; linarith
      have h4 : (254 : ℤ) < k := by exact_mod_cast h3
      omega
    rw [hkeq, clamp255_of_ge hk255]
  · -- ch = 0, bgc = 255 : v slightly below 0, clamp brings it back
    subst hc1
    subst hc2
    have hveq : v = -(255 * ((1 - t) / t)) := by
      rw [hv]
      push_cast
      field_simp
      exact Or.inl (by ring)
    have hle : (k : ℝ) ≤ (1 : ℝ) / 2 := by
      have h1 := (abs_le.mp hk.1).2
      have h2 : (0 : ℝ) ≤ 255 * ((1 - t) / t) := by positivity
      rw [hveq] at h1
      linarith
    have hk0 : k ≤ 0 := by
      have h3 : (k : ℝ) < ((1 : ℤ) : ℝ) := by push_cast; linarith
      have h4 : k < (1 : ℤ) := by exact_mod_cast h3
      omega
    rw [hkeq, clamp255_of_le_zero hk0]

/-- For any thresholds `B < F`: a `uniformPixel` output that ends fully
opaque keeps the original RGB, and one that ends fully transparent also
keeps the original RGB (UniformMatte never zeroes color). -/
theorem uniformPixel_extremes (B F : ℕ) (hBF : B < F) (bg : Color) (p : Pixel)
    (hp : wfPixel p) (hbg : wfColor bg) :
    ((uniformPixel B F bg p).a = 255 →
      ((uniformPixel B F bg p).r, (uniformPixel B F bg p).g,
        (uniformPixel B F bg p).b) = (p.r, p.g, p.b)) ∧
    ((uniformPixel B F bg p).a = 0 →
      ((uniformPixel B F bg p).r, (uniformPixel B F bg p).g,
        (uniformPixel B F bg p).b) = (p.r, p.g, p.b)) := by
  set d2 := sqDist (rgbOf p) bg with hd2
  by_cases h1 : d2 ≤ B ^ 2
  · rw [uniformPixel_bg (by rw [← hd2]; exact h1)]
    exact ⟨fun _ => rfl, fun _ => rfl⟩
  · by_cases h2 : F ^ 2 ≤ d2
    · rw [uniformPixel_fg (by rw [← hd2]; exact h1) (by rw [← hd2]; exact h2)]
      exact ⟨fun _ => rfl, fun _ => rfl⟩
    · have hlo : B ^ 2 < d2 := lt_of_not_le h1
      have hhi : d2 < F ^ 2 := lt_of_not_le h2
      obtain ⟨hround, hk0, hk255⟩ := uniform_alpha_spec B F d2 hBF hlo hhi
      have hBs : (B : ℝ) < Real.sqrt d2 := (natCast_lt_sqrt_iff d2 B).mpr hlo
      have hsF : Real.sqrt d2 < (F : ℝ) := (sqrt_natCast_lt_iff d2 F).mpr hhi
      have hFB : (0 : ℝ) < (F : ℝ) - B := by
        have hc : (B : ℝ) < F := by exact_mod_cast hBF
        linarith
      have ht1 : (Real.sqrt d2 - B) / ((F : ℝ) - B) < 1 := by
        rw [div_lt_one hFB]
        linarith
      by_cases hg : (F + 99 * B) ^ 2 < 10000 * d2
      · -- decontamination branch
        have hq : uniformPixel B F bg p =
            ⟨decontamChannel B F bg.1 p.r d2, decontamChannel B F bg.2.1 p.g d2,
             decontamChannel B F bg.2.2 p.b d2,
             clamp255 (rdSqrtLin 255 d2 (-(255 * (B : ℤ))) ((F : ℤ) - B))⟩ := by
          unfold uniformPixel
          rw [← hd2, if_neg (by omega), if_neg (by omega), if_pos hg]
        rw [hq]
        constructor
        · intro ha
          have hkeq : rdSqrtLin 255 d2 (-(255 * (B : ℤ))) ((F : ℤ) - B) = 255 :=
            le_antisymm hk255 (clamp255_eq_255_imp ha)
          rw [hkeq] at hround
          have hne : ¬ |((255 : ℤ) : ℝ) -
              255 * ((Real.sqrt d2 - B) / ((F : ℝ) - B))| = 1 / 2 := by
            intro h0
            have heven := hround.2 h0
            rw [Int.even_iff] at heven
            omega
          have hlt := lt_of_le_of_ne hround.1 hne
          have htgt : (509 : ℝ) / 510 < (Real.sqrt d2 - B) / ((F : ℝ) - B) := by
            rw [abs_lt] at hlt
            have h2c := hlt.2
            push_cast at h2c
            linarith
          have hcr := decontamChannel_id_of_t_close B F bg.1 p.r d2 hBF hlo
            hp.1 hbg.1 htgt ht1
          have hcg := decontamChannel_id_of_t_close B F bg.2.1 p.g d2 hBF hlo
            hp.2.1 hbg.2.1 htgt ht1
          have hcb := decontamChannel_id_of_t_close B F bg.2.2 p.b d2 hBF hlo
            hp.2.2.1 hbg.2.2 htgt ht1
          rw [hcr, hcg, hcb]
        · intro ha
          exfalso
          have hkeq : rdSqrtLin 255 d2 (-(255 * (B : ℤ))) ((F : ℤ) - B) = 0 :=
            le_antisymm (clamp255_eq_zero_imp ha) hk0
          rw [hkeq] at hround
          have habs := (abs_le.mp hround.1).1
          have htgt := (uniform_guard_iff B F d2 hBF).mp hg
          push_cast at habs
          linarith
      · -- no decontamination: RGB untouched either way
        have hq : uniformPixel B F bg p =
            ⟨p.r, p.g, p.b,
             clamp255 (rdSqrtLin 255 d2 (-(255 * (B : ℤ))) ((F : ℤ) - B))⟩ := by
          unfold uniformPixel
          rw [← hd2, if_neg (by omega), if_neg (by omega), if_neg hg]
        rw [hq]
        exact ⟨fun _ => rfl, fun _ => rfl⟩

/-- `dmPixel` at the alpha extremes: fully opaque keeps the black-composite
color, fully transparent zeroes the color. -/
theorem dmPixel_extremes (pw pb : Pixel) (hb : wfPixel pb) :
    ((dmPixel pw pb).a = 255 →
      ((dmPixel pw pb).r, (dmPixel pw pb).g, (dmPixel pw pb).b) = (pb.r, pb.g, pb.b)) ∧
    ((dmPixel pw pb).a = 0 →
      ((dmPixel pw pb).r, (dmPixel pw pb).g, (dmPixel pw pb).b) = (0, 0, 0)) := by
  set Δ2 := sqDist (rgbOf pw) (rgbOf pb) with hΔ
  constructor
  · intro ha
    rw [dmPixel_a, ← hΔ] at ha
    have hceil : ceilSqrtDiv (3 * Δ2) 3 = 0 := by
      unfold dmAlpha at ha
      omega
    have hΔ0 : Δ2 = 0 := by
      unfold ceilSqrtDiv at hceil
      by_cases h0 : 3 * Δ2 = 0
      · omega
      · rw [if_neg h0] at hceil
        omega
    rw [dmPixel_dist_zero pw pb hb (by rw [← hΔ]; exact hΔ0)]
  · intro ha
    rw [dmPixel_a, ← hΔ] at ha
    have hge : 255 ≤ ceilSqrtDiv (3 * Δ2) 3 := by
      unfold dmAlpha at ha
      omega
    have h3 : ¬ 3 * Δ2 = 0 := by
      intro h0
      unfold ceilSqrtDiv at hge
      rw [if_pos h0] at hge
      omega
    have hsq : 762 ≤ Nat.sqrt (3 * Δ2 - 1) := by
      unfold ceilSqrtDiv at hge
      rw [if_neg h3] at hge
      omega
    have hbig : 762 * 762 ≤ 3 * Δ2 - 1 := Nat.le_sqrt.mp hsq
    have hguard : ¬ 10000 * Δ2 < 9801 * 195075 := by omega
    rw [dmPixel_neg pw pb (by rw [← hΔ]; exact hguard)]

/-- C3 (amended): for every input image and every threshold pair
`bg_threshold < fg_threshold`, in both UniformMatte
(`make_background_transparent`) and DifferenceMatte (`difference_matte`),
decontaminated color only ever differs from the original for pixels whose
final alpha is strictly between 0 and 255: every pixel that ends fully
opaque retains its original color (the black-composite color for
DifferenceMatte).  A fully transparent pixel has its color zeroed in
DifferenceMatte, but in UniformMatte (and hence not in every strategy) a
fully transparent pixel retains its original RGB — it is not zeroed. -/
theorem extreme_alpha_color_policy :
    (∀ (img : Img) (bt : String) (bd bl : Color) (B F : ℕ), B < F →
      ∀ i : ℕ, i < img.data.length →
      ∀ p q : Pixel, p = img.data.getD i ⟨0, 0, 0, 0⟩ →
      q = (make_background_transparent img bt bd bl B F).1.data.getD i ⟨0, 0, 0, 0⟩ →
      wfPixel p → wfColor (actualBg img) →
      ((q.a = 255 → (q.r, q.g, q.b) = (p.r, p.g, p.b)) ∧
       (q.a = 0 → (q.r, q.g, q.b) = (p.r, p.g, p.b)))) ∧
    (∀ (imgW imgB out : Img) (stats : DifferenceMatteStats),
      difference_matte imgW imgB = .ok (out, stats) →
      ∀ i : ℕ, i < imgW.data.length → i < imgB.data.length →
      ∀ pb q : Pixel, pb = imgB.data.getD i ⟨0, 0, 0, 0⟩ →
      q = out.data.getD i ⟨0, 0, 0, 0⟩ → wfPixel pb →
      ((q.a = 255 → (q.r, q.g, q.b) = (pb.r, pb.g, pb.b)) ∧
       (q.a = 0 → (q.r, q.g, q.b) = (0, 0, 0)))) := by
  constructor
  · intro img bt bd bl B F hBF i hi p q hp hq hwfp hwfbg
    have hq2 : q = uniformPixel B F (actualBg img) p := by
      rw [hq, make_background_transparent_img, hp]
      exact getD_map_of_lt _ _ _ _ _ hi
    rw [hq2]
    exact uniformPixel_extremes B F hBF (actualBg img) p hwfp hwfbg
  · intro imgW imgB out stats hok i hiW hiB pb q hpb hq hwfb
    have hsz : (imgW.w, imgW.h) = (imgB.w, imgB.h) := by
      by_contra hne
      unfold difference_matte at hok
      rw [if_neg hne] at hok
      exact Except.noConfusion hok
    obtain ⟨stats2, hok2⟩ := difference_matte_ok imgW imgB hsz
    rw [hok] at hok2
    have hout : out = ⟨"RGBA", imgW.w, imgW.h,
        List.zipWith dmPixel imgW.data imgB.data⟩ := by
      have := (Except.ok.injEq _ _).mp hok2
      exact congrArg Prod.fst this
    have hq2 : q = dmPixel (imgW.data.getD i ⟨0, 0, 0, 0⟩) pb := by
      rw [hq, hout, hpb]
      exact getD_zipWith_of_lt dmPixel imgW.data imgB.data i ⟨0, 0, 0, 0⟩ hiW hiB
    rw [hq2]
    exact dmPixel_extremes (imgW.data.getD i ⟨0, 0, 0, 0⟩) pb hwfb

/-- C3 counterexample: on a 1×1 image whose single pixel equals the
corner-detected background, `make_background_transparent` ends the pixel
fully transparent with its RGB retained — the color is not zeroed, so
"every pixel that ends fully transparent has its color zeroed" is false. -/
theorem uniformMatte_transparent_pixel_not_zeroed :
    ((make_background_transparent ⟨"RGBA", 1, 1, [⟨100, 100, 100, 255⟩]⟩ "dark"
        (37, 40, 59) (255, 255, 255) 15 80).1.data.getD 0 ⟨0, 0, 0, 0⟩).a = 0 ∧
    ¬ (((make_background_transparent ⟨"RGBA", 1, 1, [⟨100, 100, 100, 255⟩]⟩ "dark"
        (37, 40, 59) (255, 255, 255) 15 80).1.data.getD 0 ⟨0, 0, 0, 0⟩).r,
       ((make_background_transparent ⟨"RGBA", 1, 1, [⟨100, 100, 100, 255⟩]⟩ "dark"
        (37, 40, 59) (255, 255, 255) 15 80).1.data.getD 0 ⟨0, 0, 0, 0⟩).g,
       ((make_background_transparent ⟨"RGBA", 1, 1, [⟨100, 100, 100, 255⟩]⟩ "dark"
        (37, 40, 59) (255, 255, 255) 15 80).1.data.getD 0 ⟨0, 0, 0, 0⟩).b) =
      (0, 0, 0) := by
  constructor
  · rfl
  · decide

/-- C9: `convert_to_monochrome` preserves every pixel's alpha exactly,
replaces the RGB of every pixel with positive alpha by exactly the target
color, and leaves fully transparent pixels entirely untouched. -/
theorem monochrome_preserves_alpha_replaces_rgb (img : Img) (target : Color)
    (i : ℕ) (hi : i < img.data.length) (p q : Pixel)
    (hp : p = img.data.getD i ⟨0, 0, 0, 0⟩)
    (hq : q = (convert_to_monochrome img target).data.getD i ⟨0, 0, 0, 0⟩) :
    q.a = p.a ∧
    (0 < p.a → (q.r, q.g, q.b) = (target.1, target.2.1, target.2.2)) ∧
    (p.a = 0 → q = p) := by
  have hdata : (convert_to_monochrome img target).data =
      img.data.map (monoPixel target) := rfl
  have hq2 : q = monoPixel target p := by
    rw [hq, hdata, hp]
    exact getD_map_of_lt _ _ _ _ _ hi
  rw [hq2]
  unfold monoPixel
  by_cases h : 0 < p.a
  · rw [if_pos h]
    exact ⟨rfl, fun _ => rfl, fun h0 => absurd h0 (by omega)⟩
  · rw [if_neg h]
    exact ⟨rfl, fun hgt => absurd hgt h, fun _ => rfl⟩

/-- C8: `resize_image` is a no-op (same image, equal original and new
dimensions) when the image is already at the target size, and resizing is
idempotent: a second call with the same target returns the stored image
byte-for-byte unchanged with unchanged dimensions. -/
theorem resize_noop_and_idempotent (img : Img) (tw th : ℕ) :
    ((img.w, img.h) = (tw, th) →
      resize_image img tw th = (img, (img.w, img.h, img.w, img.h))) ∧
    resize_image (resize_image img tw th).1 tw th =
      ((resize_image img tw th).1, (tw, th, tw, th)) := by
  constructor
  · intro h
    unfold resize_image
    rw [if_pos h]
  · by_cases h : (img.w, img.h) = (tw, th)
    · have hw : img.w = tw := congrArg Prod.fst h
      have hh : img.h = th := congrArg Prod.snd h
      have h1 : (resize_image img tw th).1 = img := by
        unfold resize_image
        rw [if_pos h]
      rw [h1]
      unfold resize_image
      rw [if_pos h, hw, hh]
    · have h1 : (resize_image img tw th).1 = pilResize img tw th := by
        unfold resize_image
        rw [if_neg h]
      rw [h1]
      unfold resize_image
      have hw2 : (pilResize img tw th).w = tw := rfl
      have hh2 : (pilResize img tw th).h = th := rfl
      rw [hw2, hh2, if_pos rfl]

/-- C4 (amended): the alpha-presence flag `finalize` stores for a derived
variant is `has_alpha_channel` of the saved file, which reflects only the
stored image *mode* (RGBA/LA/PA), not the presence of non-255 alpha values
in the buffer; every monochrome variant is saved as RGBA, so its flag is
true regardless of its pixel contents. -/
theorem variant_alpha_flag_is_mode_based :
    (∀ img : Img, finalizeVariantHasAlpha img = has_alpha_channel img) ∧
    (∀ (src : Img) (tc : Color),
      finalizeVariantHasAlpha (convert_to_monochrome src tc) = true) ∧
    (∀ img : Img, has_alpha_channel img = true ↔
      (img.mode = "RGBA" ∨ img.mode = "LA" ∨ img.mode = "PA")) := by
  refine ⟨fun _ => rfl, fun _ _ => rfl, fun img => ?_⟩
  unfold has_alpha_channel
  simp only [Bool.or_eq_true, beq_iff_eq]
  rw [or_assoc]

/-- C4 counterexample: a monochrome variant whose buffer is entirely
opaque (every alpha is 255) still gets flag `true`, refuting "the flag is
true iff the buffer contains at least one pixel with alpha ≠ 255". -/
theorem variant_flag_true_without_transparency :
    finalizeVariantHasAlpha
      (convert_to_monochrome ⟨"RGBA", 1, 1, [⟨10, 20, 30, 255⟩]⟩ (255, 255, 255)) = true ∧
    ∀ p ∈ (convert_to_monochrome ⟨"RGBA", 1, 1, [⟨10, 20, 30, 255⟩]⟩
      (255, 255, 255)).data, p.a = 255 := by
  constructor
  · rfl
  · decide

/-! ## C6: termination of the erosion phase -/

theorem getD_prop {P : Pixel → Prop} {l : List Pixel} (h : ∀ p ∈ l, P p)
    {d : Pixel} (hd : P d) (i : ℕ) : P (l.getD i d) := by
  induction l generalizing i with
  | nil => simpa [List.getD] using hd
  | cons x xs ih =>
    cases i with
    | zero => exact h x (List.mem_cons_self _ _)
    | succ j =>
      rw [List.getD_cons_succ]
      exact ih (fun p hp => h p (List.mem_cons_of_mem _ hp)) j

theorem erodeList_nil_of_transparent (tolerance : ℕ) (bg : Color) (img : Img)
    (h : ∀ p ∈ img.data, p.a = 0) : erodeList tolerance bg img = [] := by
  unfold erodeList
  rw [List.flatMap_eq_nil_iff]
  intro y _
  rw [List.filterMap_eq_nil_iff]
  intro x _
  have hpa : (pixAt img x y).a = 0 :=
    getD_prop (P := fun p => p.a = 0) h rfl (y * img.w + x)
  rw [if_neg]
  intro hcon
  exact hcon.1 hpa

theorem pixAt_mem_of_lt (img : Img) (x y : ℕ)
    (hidx : y * img.w + x < img.data.length) : pixAt img x y ∈ img.data := by
  unfold pixAt
  rw [List.getD_eq_getElem?_getD, List.getElem?_eq_getElem hidx]
  exact List.getElem_mem hidx

theorem erodeList_nil_of_opaque (tolerance : ℕ) (bg : Color) (img : Img)
    (hlen : img.data.length = img.w * img.h) (h : ∀ p ∈ img.data, p.a ≠ 0) :
    erodeList tolerance bg img = [] := by
  unfold erodeList
  rw [List.flatMap_eq_nil_iff]
  intro y _
  rw [List.filterMap_eq_nil_iff]
  intro x _
  rw [if_neg]
  intro hcon
  have hnb := hcon.2.2
  unfold hasTransparentNeighbor at hnb
  rw [List.any_eq_true] at hnb
  obtain ⟨d, _, hd⟩ := hnb
  rw [Bool.and_eq_true, decide_eq_true_eq, decide_eq_true_eq] at hd
  obtain ⟨⟨hnx0, hnxlt, hny0, hnylt⟩, hna⟩ := hd
  set nx := ((x : ℤ) + d.1).toNat with hnx
  set ny := ((y : ℤ) + d.2).toNat with hny
  have hxw : nx < img.w := by omega
  have hyh : ny < img.h := by omega
  have hidx : ny * img.w + nx < img.data.length := by
    rw [hlen]
    calc ny * img.w + nx < ny * img.w + img.w := by omega
    _ = (ny + 1) * img.w := by ring
    _ ≤ img.h * img.w := Nat.mul_le_mul_right img.w (by omega)
    _ = img.w * img.h := Nat.mul_comm _ _
  exact h (pixAt img nx ny) (pixAt_mem_of_lt img nx ny hidx) hna

theorem erodeLoop_of_nil (tolerance : ℕ) (bg : Color) (n : ℕ) (img : Img)
    (h : erodeList tolerance bg img = []) : erodeLoop tolerance bg n img = img := by
  cases n with
  | zero => rfl
  | succ m => simp [erodeLoop, h]

theorem erodeIters_of_nil (tolerance : ℕ) (bg : Color) (n : ℕ) (img : Img)
    (h : erodeList tolerance bg img = []) :
    erodeIters tolerance bg n img ≤ min n 1 := by
  cases n with
  | zero => simp [erodeIters]
  | succ m => simp [erodeIters, h]

theorem erodeIters_le (tolerance : ℕ) (bg : Color) :
    ∀ (n : ℕ) (img : Img), erodeIters tolerance bg n img ≤ n := by
  intro n
  induction n with
  | zero => intro img; simp [erodeIters]
  | succ m ih =>
    intro img
    by_cases h : erodeList tolerance bg img = []
    · simp [erodeIters, h]
    · simp only [erodeIters, if_neg h]
      have := ih (applyErode img (erodeList tolerance bg img))
      omega

/-- C6: the iterative-erosion phase of `auto_remove_background` terminates:
it performs at most `erosion_passes` scans, stops as soon as a scan
collects no pixel (a fixed point: the image is returned unchanged with at
most one scan executed), and in particular performs no work beyond one
scan on a fully transparent or fully opaque image. -/
theorem floodErode_erosion_terminates (tolerance : ℕ) (bg : Color)
    (erosion_passes : ℕ) (img : Img) :
    erodeIters tolerance bg erosion_passes img ≤ erosion_passes ∧
    (erodeList tolerance bg img = [] →
      erodeLoop tolerance bg erosion_passes img = img ∧
      erodeIters tolerance bg erosion_passes img ≤ min erosion_passes 1) ∧
    ((∀ p ∈ img.data, p.a = 0) →
      erodeLoop tolerance bg erosion_passes img = img ∧
      erodeIters tolerance bg erosion_passes img ≤ min erosion_passes 1) ∧
    (img.data.length = img.w * img.h → (∀ p ∈ img.data, p.a ≠ 0) →
      erodeLoop tolerance bg erosion_passes img = img ∧
      erodeIters tolerance bg erosion_passes img ≤ min erosion_passes 1) := by
  refine ⟨erodeIters_le tolerance bg erosion_passes img, ?_, ?_, ?_⟩
  · intro h
    exact ⟨erodeLoop_of_nil tolerance bg erosion_passes img h,
      erodeIters_of_nil tolerance bg erosion_passes img h⟩
  · intro h
    have hnil := erodeList_nil_of_transparent tolerance bg img h
    exact ⟨erodeLoop_of_nil tolerance bg erosion_passes img hnil,
      erodeIters_of_nil tolerance bg erosion_passes img hnil⟩
  · intro hlen h
    have hnil := erodeList_nil_of_opaque tolerance bg img hlen h
    exact ⟨erodeLoop_of_nil tolerance bg erosion_passes img hnil,
      erodeIters_of_nil tolerance bg erosion_passes img hnil⟩

/-! ## C7: the checkerboard acceptance rule -/

theorem foldl_distinct_of_mem {l acc : List Color} (h : ∀ c ∈ l, c ∈ acc) :
    l.foldl (fun acc c => if c ∈ acc then acc else acc ++ [c]) acc = acc := by
  induction l generalizing acc with
  | nil => rfl
  | cons c t ih =>
    simp only [List.foldl_cons]
    rw [if_pos (h c (List.mem_cons_self _ _))]
    exact ih (fun x hx => h x (List.mem_cons_of_mem _ hx))

theorem distinctInOrder_const {l : List Color} {c0 : Color}
    (h : ∀ c ∈ l, c = c0) : distinctInOrder l = [] ∨ distinctInOrder l = [c0] := by
  cases l with
  | nil => exact Or.inl rfl
  | cons c t =>
    right
    have hc : c = c0 := h c (List.mem_cons_self _ _)
    unfold distinctInOrder
    simp only [List.foldl_cons]
    rw [if_neg (List.not_mem_nil c), List.nil_append]
    rw [foldl_distinct_of_mem]
    · rw [hc]
    · intro x hx
      rw [h x (List.mem_cons_of_mem _ hx), ← hc]
      exact List.mem_singleton.mpr rfl

theorem mostCommonTwo_const {l : List Color} {c0 : Color}
    (h : ∀ c ∈ l, c = c0) :
    mostCommonTwo l = [] ∨ ∃ n, mostCommonTwo l = [(c0, n)] := by
  unfold mostCommonTwo
  rcases distinctInOrder_const h with hd | hd
  · rw [hd]
    exact Or.inl rfl
  · rw [hd]
    refine Or.inr ⟨l.count c0, ?_⟩
    have h1 : bestBy l [c0] = some (c0, l.count c0) := rfl
    have h2 : ([c0] : List Color).erase c0 = [] := List.erase_cons_head c0 []
    simp only [h1, h2]
    rfl

/-- C7: CheckerboardDetect (`checkerboard_to_transparent`) accepts the
checkerboard hypothesis (and only then mutates pixels) iff the two most
common corner-sample colors each cover at least 25% of the sampled pixels
and together cover at least 80%; otherwise it returns `none` as a normal
result with the image untouched.  In particular an image whose corner
samples are all one uniform color always returns `none`. -/
theorem checkerboard_acceptance_rule (img : Img) (tolerance : ℕ) :
    ((checkerboard_to_transparent img tolerance).1.isSome = true ↔
      (∃ c1 n1 c2 n2, mostCommonTwo (cornerSamples img) = [(c1, n1), (c2, n2)] ∧
        (cornerSamples img).length ≤ 4 * n1 ∧
        (cornerSamples img).length ≤ 4 * n2 ∧
        4 * (cornerSamples img).length ≤ 5 * (n1 + n2))) ∧
    ((checkerboard_to_transparent img tolerance).1 = none →
      (checkerboard_to_transparent img tolerance).2 = img) ∧
    (∀ c0 : Color, (∀ c ∈ cornerSamples img, c = c0) →
      (checkerboard_to_transparent img tolerance).1 = none ∧
      (checkerboard_to_transparent img tolerance).2 = img) := by
  rcases hmc : mostCommonTwo (cornerSamples img) with _ | ⟨⟨c1, n1⟩, rest1⟩
  · have hres : checkerboard_to_transparent img tolerance = (none, img) := by
      simp only [checkerboard_to_transparent, hmc]
    rw [hres]
    refine ⟨?_, fun _ => rfl, fun c0 _ => ⟨rfl, rfl⟩⟩
    constructor
    · intro h
      simp at h
    · rintro ⟨a, b, c, d, heq, -⟩
      simp at heq
  · rcases rest1 with _ | ⟨⟨c2, n2⟩, rest2⟩
    · have hres : checkerboard_to_transparent img tolerance = (none, img) := by
        simp only [checkerboard_to_transparent, hmc]
      rw [hres]
      refine ⟨?_, fun _ => rfl, fun c0 _ => ⟨rfl, rfl⟩⟩
      constructor
      · intro h
        simp at h
      · rintro ⟨a, b, c, d, heq, -⟩
        simp at heq
    · rcases rest2 with _ | ⟨p3, rest3⟩
      · -- exactly two entries: the interesting case
        by_cases hc1 : 4 * n1 < (cornerSamples img).length ∨
            4 * n2 < (cornerSamples img).length
        · have hres : checkerboard_to_transparent img tolerance = (none, img) := by
            simp only [checkerboard_to_transparent, hmc]
            rw [if_pos hc1]
          rw [hres]
          refine ⟨?_, fun _ => rfl, fun c0 _ => ⟨rfl, rfl⟩⟩
          constructor
          · intro h
            simp at h
          · rintro ⟨c1a, n1a, c2a, n2a, heq, ha, hb, -⟩
            simp only [List.cons.injEq, Prod.mk.injEq, and_true] at heq
            obtain ⟨⟨-, h1⟩, ⟨-, h2⟩⟩ := heq
            omega
        · by_cases hc2 : 5 * (n1 + n2) < 4 * (cornerSamples img).length
          · have hres : checkerboard_to_transparent img tolerance = (none, img) := by
              simp only [checkerboard_to_transparent, hmc]
              rw [if_neg hc1, if_pos hc2]
            rw [hres]
            refine ⟨?_, fun _ => rfl, fun c0 _ => ⟨rfl, rfl⟩⟩
            constructor
            · intro h
              simp at h
            · rintro ⟨c1a, n1a, c2a, n2a, heq, -, -, hab⟩
              simp only [List.cons.injEq, Prod.mk.injEq, and_true] at heq
              obtain ⟨⟨-, h1⟩, ⟨-, h2⟩⟩ := heq
              omega
          · have hres : checkerboard_to_transparent img tolerance =
                (some (c1, c2), { img with data := img.data.map (fun p =>
                  if sqDist (rgbOf p) c1 < tolerance ^ 2 ∨
                      sqDist (rgbOf p) c2 < tolerance ^ 2
                  then ⟨p.r, p.g, p.b, 0⟩ else p) }) := by
              simp only [checkerboard_to_transparent, hmc]
              rw [if_neg hc1, if_neg hc2]
            rw [hres]
            refine ⟨?_, ?_, ?_⟩
            · constructor
              · intro _
                exact ⟨c1, n1, c2, n2, rfl, by omega, by omega, by omega⟩
              · intro _
                rfl
            · intro h0
              exact Option.noConfusion h0
            · intro c0 hconst
              exfalso
              rcases mostCommonTwo_const hconst with hd | ⟨n, hd⟩ <;>
                rw [hmc] at hd <;> simp at hd
      · -- three or more entries: the catchall of the match
        have hres : checkerboard_to_transparent img tolerance = (none, img) := by
          simp only [checkerboard_to_transparent, hmc]
        rw [hres]
        refine ⟨?_, fun _ => rfl, fun c0 _ => ⟨rfl, rfl⟩⟩
        constructor
        · intro h
          simp at h
        · rintro ⟨a, b, c, d, heq, -⟩
          simp at heq

/-! ## Concrete witnesses instantiating the claim theorems -/

/-- Witness for C1 at a concrete 1×1 image whose pixel equals the detected
background: the background branch fires and alpha becomes 0 with RGB kept. -/
theorem uniformMatte_classifies_witness :
    (15 : ℕ) < 80 ∧
    ((make_background_transparent ⟨"RGBA", 1, 1, [⟨200, 0, 0, 77⟩]⟩ "dark" (37, 40, 59)
        (255, 255, 255) 15 80).1.data.getD 0 ⟨0, 0, 0, 0⟩ : Pixel) = ⟨200, 0, 0, 0⟩ := by
  refine ⟨by norm_num, ?_⟩
  have h := uniformMatte_classifies_each_pixel ⟨"RGBA", 1, 1, [⟨200, 0, 0, 77⟩]⟩ "dark"
    (37, 40, 59) (255, 255, 255) 15 80 (by norm_num) 0 (by decide)
    ⟨200, 0, 0, 77⟩ rfl (200, 0, 0) rfl
    ((make_background_transparent ⟨"RGBA", 1, 1, [⟨200, 0, 0, 77⟩]⟩ "dark" (37, 40, 59)
        (255, 255, 255) 15 80).1.data.getD 0 ⟨0, 0, 0, 0⟩) rfl
    (Real.sqrt ((((⟨200, 0, 0, 77⟩ : Pixel).r : ℝ) - ((200, 0, 0) : Color).1) ^ 2 +
      (((⟨200, 0, 0, 77⟩ : Pixel).g : ℝ) - ((200, 0, 0) : Color).2.1) ^ 2 +
      (((⟨200, 0, 0, 77⟩ : Pixel).b : ℝ) - ((200, 0, 0) : Color).2.2) ^ 2)) rfl
  have hE : (((⟨200, 0, 0, 77⟩ : Pixel).r : ℝ) - ((200, 0, 0) : Color).1) ^ 2 +
      (((⟨200, 0, 0, 77⟩ : Pixel).g : ℝ) - ((200, 0, 0) : Color).2.1) ^ 2 +
      (((⟨200, 0, 0, 77⟩ : Pixel).b : ℝ) - ((200, 0, 0) : Color).2.2) ^ 2 = 0 := by
    norm_num
  exact h.1 (by rw [hE, Real.sqrt_zero]; positivity)

/-- Witness for C2 at a concrete 1×1 pair of identical composites: the
distance-zero case gives back the black-composite pixel fully opaque. -/
theorem differenceMatte_pixel_witness :
    wfPixel (⟨10, 20, 30, 255⟩ : Pixel) ∧
    (⟨"RGBA", 1, 1, List.zipWith dmPixel [Pixel.mk 10 20 30 255]
        [Pixel.mk 10 20 30 255]⟩ : Img).data.getD 0 ⟨0, 0, 0, 0⟩ =
      Pixel.mk 10 20 30 255 := by
  refine ⟨by decide, ?_⟩
  obtain ⟨stats, hok⟩ := difference_matte_ok ⟨"RGBA", 1, 1, [⟨10, 20, 30, 255⟩]⟩
    ⟨"RGBA", 1, 1, [⟨10, 20, 30, 255⟩]⟩ rfl
  have h := differenceMatte_pixel_formula ⟨"RGBA", 1, 1, [⟨10, 20, 30, 255⟩]⟩
    ⟨"RGBA", 1, 1, [⟨10, 20, 30, 255⟩]⟩ rfl
    ⟨"RGBA", 1, 1, List.zipWith dmPixel [⟨10, 20, 30, 255⟩] [⟨10, 20, 30, 255⟩]⟩ stats hok
    0 (by decide) (by decide) ⟨10, 20, 30, 255⟩ ⟨10, 20, 30, 255⟩ rfl rfl
    (by decide) (by decide)
    ((⟨"RGBA", 1, 1, List.zipWith dmPixel [Pixel.mk 10 20 30 255]
        [Pixel.mk 10 20 30 255]⟩ : Img).data.getD 0 ⟨0, 0, 0, 0⟩) rfl
    (max 0 (min 1 (1 -
      Real.sqrt ((((⟨10, 20, 30, 255⟩ : Pixel).r : ℝ) - (⟨10, 20, 30, 255⟩ : Pixel).r) ^ 2 +
        (((⟨10, 20, 30, 255⟩ : Pixel).g : ℝ) - (⟨10, 20, 30, 255⟩ : Pixel).g) ^ 2 +
        (((⟨10, 20, 30, 255⟩ : Pixel).b : ℝ) - (⟨10, 20, 30, 255⟩ : Pixel).b) ^ 2) /
        Real.sqrt (3 * 255 * 255)))) rfl
  exact h.2.2.2.1 rfl

/-- Witness for C3 at a concrete 1×1 image (the UniformMatte half): the
fully transparent result keeps its RGB. -/
theorem extreme_alpha_color_policy_witness :
    wfPixel (⟨60, 60, 60, 255⟩ : Pixel) ∧
    (((make_background_transparent ⟨"RGBA", 1, 1, [⟨60, 60, 60, 255⟩]⟩ "dark" (37, 40, 59)
        (255, 255, 255) 15 80).1.data.getD 0 ⟨0, 0, 0, 0⟩).r,
     ((make_background_transparent ⟨"RGBA", 1, 1, [⟨60, 60, 60, 255⟩]⟩ "dark" (37, 40, 59)
        (255, 255, 255) 15 80).1.data.getD 0 ⟨0, 0, 0, 0⟩).g,
     ((make_background_transparent ⟨"RGBA", 1, 1, [⟨60, 60, 60, 255⟩]⟩ "dark" (37, 40, 59)
        (255, 255, 255) 15 80).1.data.getD 0 ⟨0, 0, 0, 0⟩).b) =
      ((60 : ℕ), (60 : ℕ), (60 : ℕ)) := by
  refine ⟨by decide, ?_⟩
  have h := (extreme_alpha_color_policy).1 ⟨"RGBA", 1, 1, [⟨60, 60, 60, 255⟩]⟩ "dark"
    (37, 40, 59) (255, 255, 255) 15 80 (by norm_num) 0 (by decide) ⟨60, 60, 60, 255⟩
    ((make_background_transparent ⟨"RGBA", 1, 1, [⟨60, 60, 60, 255⟩]⟩ "dark" (37, 40, 59)
        (255, 255, 255) 15 80).1.data.getD 0 ⟨0, 0, 0, 0⟩) rfl rfl (by decide) (by decide)
  exact h.2 rfl

/-- Witness for C5 at a concrete mismatched pair of sizes 1×1 and 2×1. -/
theorem differenceMatte_dimension_mismatch_witness :
    ((1 : ℕ), (1 : ℕ)) ≠ ((2 : ℕ), (1 : ℕ)) ∧
    difference_matte ⟨"RGBA", 1, 1, [⟨0, 0, 0, 255⟩]⟩
        ⟨"RGBA", 2, 1, [⟨0, 0, 0, 255⟩, ⟨0, 0, 0, 255⟩]⟩ =
      .error ((1, 1), (2, 1)) := by
  refine ⟨by decide, ?_⟩
  exact (differenceMatte_dimension_mismatch ⟨"RGBA", 1, 1, [⟨0, 0, 0, 255⟩]⟩
    ⟨"RGBA", 2, 1, [⟨0, 0, 0, 255⟩, ⟨0, 0, 0, 255⟩]⟩ (by decide)).1

/-- Witness for C6 at a concrete fully transparent 1×1 image: the first
scan collects nothing and the loop stops at once. -/
theorem floodErode_erosion_witness :
    erodeList 30 (0, 0, 0) ⟨"RGBA", 1, 1, [⟨0, 0, 0, 0⟩]⟩ = [] ∧
    (erodeLoop 30 (0, 0, 0) 5 ⟨"RGBA", 1, 1, [⟨0, 0, 0, 0⟩]⟩ =
        ⟨"RGBA", 1, 1, [⟨0, 0, 0, 0⟩]⟩ ∧
      erodeIters 30 (0, 0, 0) 5 ⟨"RGBA", 1, 1, [⟨0, 0, 0, 0⟩]⟩ ≤ min 5 1) := by
  refine ⟨rfl, ?_⟩
  exact (floodErode_erosion_terminates 30 (0, 0, 0) 5
    ⟨"RGBA", 1, 1, [⟨0, 0, 0, 0⟩]⟩).2.1 rfl

/-- Witness for C7 at a concrete image with uniform corner samples: the
detector declines and leaves the image untouched. -/
theorem checkerboard_acceptance_witness :
    (∀ c ∈ cornerSamples ⟨"RGBA", 8, 8, List.replicate 64 ⟨9, 9, 9, 255⟩⟩,
      c = ((9, 9, 9) : Color)) ∧
    ((checkerboard_to_transparent ⟨"RGBA", 8, 8, List.replicate 64 ⟨9, 9, 9, 255⟩⟩ 30).1 =
        none ∧
      (checkerboard_to_transparent ⟨"RGBA", 8, 8, List.replicate 64 ⟨9, 9, 9, 255⟩⟩ 30).2 =
        ⟨"RGBA", 8, 8, List.replicate 64 ⟨9, 9, 9, 255⟩⟩) := by
  refine ⟨by decide, ?_⟩
  exact (checkerboard_acceptance_rule ⟨"RGBA", 8, 8, List.replicate 64 ⟨9, 9, 9, 255⟩⟩
    30).2.2 (9, 9, 9) (by decide)

/-- Witness for C8 at a concrete 2×2 image already at the target size. -/
theorem resize_noop_witness :
    (((⟨"RGBA", 2, 2, List.replicate 4 ⟨1, 2, 3, 4⟩⟩ : Img).w,
      (⟨"RGBA", 2, 2, List.replicate 4 ⟨1, 2, 3, 4⟩⟩ : Img).h) = ((2 : ℕ), (2 : ℕ))) ∧
    resize_image ⟨"RGBA", 2, 2, List.replicate 4 ⟨1, 2, 3, 4⟩⟩ 2 2 =
      (⟨"RGBA", 2, 2, List.replicate 4 ⟨1, 2, 3, 4⟩⟩, (2, 2, 2, 2)) := by
  refine ⟨rfl, ?_⟩
  exact (resize_noop_and_idempotent ⟨"RGBA", 2, 2, List.replicate 4 ⟨1, 2, 3, 4⟩⟩ 2 2).1 rfl

/-- Witness for C9 at a concrete 1×1 image with a semi-transparent pixel:
alpha 200 is kept and the RGB becomes the target color. -/
theorem monochrome_witness :
    (0 : ℕ) < (⟨"RGBA", 1, 1, [⟨5, 6, 7, 200⟩]⟩ : Img).data.length ∧
    ((convert_to_monochrome ⟨"RGBA", 1, 1, [⟨5, 6, 7, 200⟩]⟩ (1, 2, 3)).data.getD 0
        ⟨0, 0, 0, 0⟩).a = 200 ∧
    (((convert_to_monochrome ⟨"RGBA", 1, 1, [⟨5, 6, 7, 200⟩]⟩ (1, 2, 3)).data.getD 0
        ⟨0, 0, 0, 0⟩).r,
     ((convert_to_monochrome ⟨"RGBA", 1, 1, [⟨5, 6, 7, 200⟩]⟩ (1, 2, 3)).data.getD 0
        ⟨0, 0, 0, 0⟩).g,
     ((convert_to_monochrome ⟨"RGBA", 1, 1, [⟨5, 6, 7, 200⟩]⟩ (1, 2, 3)).data.getD 0
        ⟨0, 0, 0, 0⟩).b) = ((1 : ℕ), (2 : ℕ), (3 : ℕ)) := by
  have h := monochrome_preserves_alpha_replaces_rgb ⟨"RGBA", 1, 1, [⟨5, 6, 7, 200⟩]⟩ (1, 2, 3)
    0 (by decide) ⟨5, 6, 7, 200⟩
    ((convert_to_monochrome ⟨"RGBA", 1, 1, [⟨5, 6, 7, 200⟩]⟩ (1, 2, 3)).data.getD 0
      ⟨0, 0, 0, 0⟩) rfl rfl
  exact ⟨by decide, h.1, h.2.1 (by decide)⟩

end RetroAssetGen
